import Mathlib

/-!
Shallow embedding of the Elenchus document ingestion and retrieval pipeline
(backend/app): the document processor (validation, cleaning, sentence
chunking), the conversation context manager, the qdrant vector-store
adapter layer, the upload/registration service, and the document lifecycle
setters.  Python strings are modelled as Lean `String` (Python `len` and
slicing count code points, as `String.length`/`List Char` do); byte strings
as `List Nat`; datetime-valued fields are not modelled.  The SHA-256 digest
(`hashlib.sha256(...).hexdigest()`) is an external primitive and is passed
in as an explicit function argument wherever the code computes it.
-/

namespace Elenchus

/-- Python whitespace class (regex `\s`, ASCII range). -/
def isPySpace (c : Char) : Bool :=
  c = ' ' || c = '\t' || c = '\n' || c = '\r' || c = '\x0b' || c = '\x0c'

/-- Python word class (regex `\w`, ASCII range): alphanumerics and underscore. -/
def isPyWord (c : Char) : Bool :=
  c.isAlphanum || c = '_'

/-- Python `str.strip()` on a character list: drop whitespace from both ends. -/
def pyStripList (l : List Char) : List Char :=
  ((l.dropWhile isPySpace).reverse.dropWhile isPySpace).reverse

/-- Python `str.strip()`. -/
def pyStrip (s : String) : String :=
  ⟨pyStripList s.data⟩

/-- Python `sep.join(xs)`. -/
def pyJoin (sep : String) : List String → String
  | [] => ""
  | [a] => a
  | a :: b :: rest => a ++ sep ++ pyJoin sep (b :: rest)

/-- Python `str.lower()` (ASCII range). -/
def pyLower (s : String) : String :=
  ⟨s.data.map Char.toLower⟩

/-- Python `s[:n]`: the first `n` code points. -/
def pyTake (s : String) (n : Nat) : String :=
  ⟨s.data.take n⟩

/-- Python `str.endswith(suffix)`. -/
def pyEndsWith (s suff : String) : Bool :=
  suff.data.isSuffixOf s.data

/-- Splitter for Python `str.split()` (split on whitespace runs, no empty
pieces); used for the chunker's `word_count`. -/
def pyWordsAux (acc : List Char) : List Char → List (List Char)
  | [] => if acc.isEmpty then [] else [acc.reverse]
  | c :: rest =>
    if isPySpace c then
      if acc.isEmpty then pyWordsAux [] rest
      else acc.reverse :: pyWordsAux [] rest
    else pyWordsAux (c :: acc) rest

/-- `len(text.split())` in Python. -/
def pyWordCount (s : String) : Nat :=
  (pyWordsAux [] s.data).length

/-- `re.sub(r'\s+', ' ', text)`: collapse each whitespace run to one space. -/
def collapseWsList : List Char → List Char
  | [] => []
  | c :: rest =>
    if isPySpace c then ' ' :: collapseWsList (rest.dropWhile isPySpace)
    else c :: collapseWsList rest
termination_by l => l.length
decreasing_by
  all_goals simp_wf
  all_goals first
    | omega
    | (have h := (List.dropWhile_sublist (l := rest) (p := isPySpace)).length_le; omega)

/-- The character class kept by `clean_text`'s second substitution
(`[^\w\s\.,!?;:()\-\'""]` is replaced by a space). -/
def isCleanKeep (c : Char) : Bool :=
  isPyWord c || isPySpace c ||
    c = '.' || c = ',' || c = '!' || c = '?' || c = ';' || c = ':' ||
    c = '(' || c = ')' || c = '-' || c = '\x27' || c = '\x22'

/-- `re.sub(r'\n+', '\n', text)`: collapse newline runs. -/
def collapseNlList : List Char → List Char
  | [] => []
  | c :: rest =>
    if c = '\n' then '\n' :: collapseNlList (rest.dropWhile (· = '\n'))
    else c :: collapseNlList rest
termination_by l => l.length
decreasing_by
  all_goals simp_wf
  all_goals first
    | omega
    | (have h := (List.dropWhile_sublist (l := rest) (p := (fun c => c = '\n'))).length_le; omega)

/-- `DocumentProcessor.clean_text`: collapse whitespace, blank out the
disallowed characters, collapse newlines, strip. -/
def cleanText (s : String) : String :=
  pyStrip
    ⟨collapseNlList
      ((collapseWsList s.data).map (fun c => if isCleanKeep c then c else ' '))⟩

/-- Sentence-terminating characters of the split pattern `(?<=[.!?])\s+`. -/
def isSentEnd (c : Char) : Bool :=
  c = '.' || c = '!' || c = '?'

/-- Worker for `re.split(r'(?<=[.!?])\s+', text)`: a split point is a maximal
whitespace run whose preceding character is `.`, `!` or `?`. -/
def splitSentencesList (acc : List Char) : List Char → List (List Char)
  | [] => [acc.reverse]
  | c :: rest =>
    if isPySpace c && (match acc with | p :: _ => isSentEnd p | [] => false) then
      acc.reverse :: splitSentencesList [] (rest.dropWhile isPySpace)
    else
      splitSentencesList (c :: acc) rest
termination_by l => l.length
decreasing_by
  all_goals simp_wf
  all_goals first
    | omega
    | (have h := (List.dropWhile_sublist (l := rest) (p := isPySpace)).length_le; omega)

/-- `re.split(r'(?<=[.!?])\s+', text)` as used by `create_chunks`. -/
def splitSentences (s : String) : List String :=
  (splitSentencesList [] s.data).map (fun l => ⟨l⟩)

/-- One emitted chunk, as built by `DocumentProcessor.create_chunks`.  The
source records `len(current_chunk_sentences)` as `sentence_count`; the model
additionally keeps the sentence buffer itself (field `sentences`) so that
sentence sharing between chunks can be stated. -/
structure Chunk where
  text : String
  textHash : String
  page : Nat
  sentences : List String
  sentenceCount : Nat
  charCount : Nat
  wordCount : Nat
deriving Repr, DecidableEq

/-- Chunker loop state: the emitted chunks, `current_chunk` and
`current_chunk_sentences`. -/
structure ChunkState where
  chunks : List Chunk
  cur : String
  curS : List String
deriving Repr, DecidableEq

/-- `chunk_text = current_chunk.strip(); if chunk_text: chunks.append({...})`. -/
def emitChunk (textHash : String → String) (page : Nat) (st : ChunkState) : List Chunk :=
  let t := pyStrip st.cur
  if t ≠ "" then
    st.chunks ++ [{ text := t, textHash := textHash t, page := page,
                    sentences := st.curS, sentenceCount := st.curS.length,
                    charCount := t.length, wordCount := pyWordCount t }]
  else st.chunks

/-- One iteration of the sentence loop in `create_chunks`. -/
def chunkStep (chunkSize overlap : Nat) (textHash : String → String) (page : Nat)
    (st : ChunkState) (s : String) : ChunkState :=
  let st1 :=
    if (st.cur ++ " " ++ s).length > chunkSize ∧ st.cur ≠ "" then
      let chunks' := emitChunk textHash page st
      if overlap > 0 ∧ st.curS ≠ [] then
        let ov := st.curS.drop (st.curS.length - min 2 st.curS.length)
        { chunks := chunks', cur := pyJoin " " ov, curS := ov }
      else
        { chunks := chunks', cur := "", curS := [] }
    else st
  let cur' := if st1.cur ≠ "" then st1.cur ++ " " ++ s else s
  { st1 with cur := cur', curS := st1.curS ++ [s] }

/-- The sentence loop of `create_chunks` over one page's sentences. -/
def chunkLoop (chunkSize overlap : Nat) (textHash : String → String) (page : Nat) :
    ChunkState → List String → ChunkState
  | st, [] => st
  | st, s :: rest =>
    chunkLoop chunkSize overlap textHash page (chunkStep chunkSize overlap textHash page st s) rest

/-- `create_chunks` restricted to one `(page, text)` entry: clean, skip empty
text, split into sentences, run the loop, emit the final buffer. -/
def chunkPage (chunkSize overlap : Nat) (textHash : String → String)
    (page : Nat) (text : String) : List Chunk :=
  let t := cleanText text
  if t = "" then []
  else
    emitChunk textHash page
      (chunkLoop chunkSize overlap textHash page
        { chunks := [], cur := "", curS := [] } (splitSentences t))

/-- `DocumentProcessor.create_chunks` over the extracted `(page, text)` list. -/
def createChunks (chunkSize overlap : Nat) (textHash : String → String)
    (textContent : List (Nat × String)) : List Chunk :=
  (textContent.map (fun pc => chunkPage chunkSize overlap textHash pc.1 pc.2)).flatten

/-- Result of `DocumentProcessor.validate_document`.  The source dict has
exactly the keys `valid`, `errors`, `warnings`, `file_size`, `filename`. -/
structure ValidationResult where
  valid : Bool
  errors : List String
  warnings : List String
  fileSize : Nat
  filename : String
deriving Repr, DecidableEq

/-- `max_size = 50 * 1024 * 1024`. -/
def maxDocumentSize : Nat := 50 * 1024 * 1024

/-- `supported_extensions` in `validate_document`. -/
def supportedExtensions : List String := [".pdf", ".doc", ".docx", ".txt", ".md"]

/-- `DocumentProcessor.validate_document` (the f-string interpolations inside
the error messages are elided). -/
def validateDocument (fileContent : List Nat) (filename : String) : ValidationResult :=
  let base : ValidationResult :=
    { valid := true, errors := [], warnings := [],
      fileSize := fileContent.length, filename := filename }
  let r1 :=
    if fileContent.length > maxDocumentSize then
      { base with
          valid := false
          errors := base.errors ++ ["File size exceeds maximum allowed size"] }
    else base
  let r2 :=
    if fileContent.length = 0 then
      { r1 with valid := false, errors := r1.errors ++ ["File is empty"] }
    else r1
  let r3 :=
    if filename = "" ∨ pyStrip filename = "" then
      { r2 with valid := false, errors := r2.errors ++ ["Filename is required"] }
    else r2
  if ¬ (supportedExtensions.any (fun ext => pyEndsWith (pyLower filename) ext)) then
    { r3 with
        valid := false
        errors := r3.errors ++ ["Unsupported file type. Supported: .pdf, .doc, .docx, .txt, .md"] }
  else r3

/-- `DocumentProcessor.generate_document_hash`: the SHA-256 hex digest of the
bytes, with the digest primitive passed in explicitly. -/
def generateDocumentHash (hashHex : List Nat → String) (fileContent : List Nat) : String :=
  hashHex fileContent


/-! ## Conversation context manager (`app/services/context_manager.py`) -/

/-- `ModelRole` from `app/services/model_router.py`. -/
inductive ModelRole where
  | system
  | user
  | assistant
deriving Repr, DecidableEq

/-- `ModelMessage` from `app/services/model_router.py`. -/
structure ModelMessage where
  role : ModelRole
  content : String
deriving Repr, DecidableEq

/-- `ConversationContext` (the `metadata` dict and the datetime fields are not
modelled). -/
structure ConversationContext where
  sessionId : String
  messages : List ModelMessage
  totalTokens : Nat
  maxTokens : Nat
  systemPrompt : String
deriving Repr, DecidableEq

/-- `ContextManager` with its construction parameters; the session dict is an
association list. -/
structure ContextManager where
  maxContextTokens : Nat := 8000
  maxMessages : Nat := 50
  contexts : List (String × ConversationContext) := []
deriving Repr, DecidableEq

/-- `chars_per_token = 4`. -/
def charsPerToken : Nat := 4

/-- `ContextManager._estimate_tokens`: `max(1, len(text) // 4)`. -/
def estimateTokens (text : String) : Nat :=
  max 1 (text.length / charsPerToken)

/-- `ContextManager._get_default_system_prompt`, transcribed exactly
(the apostrophe is written as the escape `\x27`). -/
def defaultSystemPrompt : String :=
  "You are Elenchus, a professional legal AI assistant. You provide helpful, accurate legal analysis and research assistance. \n\nKey guidelines:\n- Provide clear, well-structured legal analysis\n- Cite relevant laws, cases, and precedents when applicable\n- Always clarify that you\x27re providing information, not legal advice\n- Ask clarifying questions when the legal issue is unclear\n- Be professional but approachable in your communication\n- Maintain context of our ongoing conversation"

/-- Dictionary lookup `self.contexts[session_id]`. -/
def findContext (m : ContextManager) (sid : String) : Option ConversationContext :=
  (m.contexts.find? (fun p => p.1 == sid)).map (fun p => p.2)

/-- Dictionary assignment `self.contexts[session_id] = context`. -/
def setContext (m : ContextManager) (sid : String) (ctx : ConversationContext) : ContextManager :=
  if (m.contexts.find? (fun p => p.1 == sid)).isSome then
    { m with contexts := m.contexts.map (fun p => if p.1 == sid then (sid, ctx) else p) }
  else
    { m with contexts := m.contexts ++ [(sid, ctx)] }

/-- `ContextManager.create_session` with an explicit session id.  Python
treats both `None` and `""` as "no prompt given" (`if not system_prompt`). -/
def createSessionWith (m : ContextManager) (sid : String)
    (systemPrompt : Option String) : ContextManager :=
  let prompt :=
    match systemPrompt with
    | some p => if p ≠ "" then p else defaultSystemPrompt
    | none => defaultSystemPrompt
  let ctx : ConversationContext :=
    { sessionId := sid
      messages := [{ role := ModelRole.system, content := prompt }]
      totalTokens := estimateTokens prompt
      maxTokens := m.maxContextTokens
      systemPrompt := prompt }
  setContext m sid ctx

/-- Topic extraction in `_create_conversation_summary`:
`content[:50] + "..."` when the lowercased content is longer than 50. -/
def summaryTopic (m : ModelMessage) : String :=
  let c := pyLower m.content
  if c.length > 50 then pyTake c 50 ++ "..." else c

/-- `ContextManager._create_conversation_summary`. -/
def createConversationSummary (messages : List ModelMessage) : String :=
  if messages = [] then ""
  else
    let topics := (messages.filter (fun m => m.role == ModelRole.user)).map summaryTopic
    if topics ≠ [] then "Discussed: " ++ pyJoin ", " (topics.take 3)
    else "Previous conversation context"

/-- Sum of per-message token estimates. -/
def sumTokens (msgs : List ModelMessage) : Nat :=
  (msgs.map (fun m => estimateTokens m.content)).sum

/-- `ContextManager._compress_context`.  `target_tokens` can be negative in
Python, hence the `Int` comparison.  Python slices `messages[-6:]`,
`messages[-2:]`, `messages[1:-6]` and `messages[:-6]` are written with
`drop`/`take`. -/
def compressContext (ctx : ConversationContext) (neededTokens : Nat) : ConversationContext :=
  let target : Int := (ctx.maxTokens : Int) - (neededTokens : Int) - 1000
  let systemMsg : Option ModelMessage :=
    match ctx.messages with
    | m :: _ => if m.role == ModelRole.system then some m else none
    | [] => none
  let recent := ctx.messages.drop (ctx.messages.length - min 6 ctx.messages.length)
  let protectedTokens : Nat :=
    (match systemMsg with
     | some m => estimateTokens m.content
     | none => 0) + sumTokens recent
  if (protectedTokens : Int) ≤ target then
    let base :=
      match systemMsg with
      | some m => [m]
      | none => []
    let elided :=
      match systemMsg with
      | some _ => (ctx.messages.take (ctx.messages.length - 6)).drop 1
      | none => ctx.messages.take (ctx.messages.length - 6)
    let withSummary :=
      if ctx.messages.length >
          recent.length + (match systemMsg with | some _ => 1 | none => 0) then
        let summary := createConversationSummary elided
        if summary ≠ "" then
          base ++ [{ role := ModelRole.system
                     content := "[Previous conversation summary: " ++ summary ++ "]" }]
        else base
      else base
    let newMessages := withSummary ++ recent
    { ctx with messages := newMessages, totalTokens := sumTokens newMessages }
  else
    let lastTwo := ctx.messages.drop (ctx.messages.length - min 2 ctx.messages.length)
    let newMessages :=
      (match systemMsg with
       | some m => [m]
       | none => []) ++ lastTwo
    { ctx with messages := newMessages, totalTokens := sumTokens newMessages }

/-- `ContextManager.add_message`: create the session when missing, compress
when the post-append estimate would exceed the budget, then append.  Returns
the updated manager and the method's return value (always `True`). -/
def addMessage (m : ContextManager) (sid : String) (content : String)
    (role : ModelRole) : ContextManager × Bool :=
  let m1 := if (findContext m sid).isSome then m else createSessionWith m sid none
  match findContext m1 sid with
  | none => (m1, true)
  | some ctx =>
    let message : ModelMessage := { role := role, content := content }
    let messageTokens := estimateTokens content
    let ctx1 :=
      if ctx.totalTokens + messageTokens > ctx.maxTokens then
        compressContext ctx messageTokens
      else ctx
    let ctx2 :=
      { ctx1 with
          messages := ctx1.messages ++ [message]
          totalTokens := ctx1.totalTokens + messageTokens }
    (setContext m1 sid ctx2, true)


/-! ## Vector store adapter (`app/database/qdrant_manager.py`,
`app/services/rag_service.py`)

The qdrant client is an external collaborator; its documented semantics are
modelled here: a stored point carries a payload, a `Filter(must=[...])`
matches a point when every `FieldCondition` equals the stored payload value,
`search` ranks the matching points by similarity score (descending), drops
those below the score threshold and returns at most `limit` of them, and
`delete` removes exactly the matching points.  Similarity scores (floats in
the source) are modelled as `Int`; the query embedding and the similarity
computation are abstracted into a `scoreOf` function. -/

/-- A payload value: qdrant `MatchValue` is constructed from a string in the
delete path and from a whole string list in the `document_ids` search path. -/
inductive PayloadValue where
  | str (s : String)
  | strList (l : List String)
deriving Repr, DecidableEq

/-- `FieldCondition(key=..., match=MatchValue(value=...))`. -/
structure FieldCondition where
  key : String
  matchValue : PayloadValue
deriving Repr, DecidableEq

/-- `Filter(must=[...])`. -/
structure QFilter where
  must : List FieldCondition
deriving Repr, DecidableEq

/-- A stored vector point with the payload fields written by
`RAGService.store_document_chunks`. -/
structure QPoint where
  id : String
  userId : String
  documentId : String
  text : String
  chunkIndex : Nat
deriving Repr, DecidableEq

/-- Payload lookup on a stored point. -/
def payloadGet (p : QPoint) (key : String) : Option PayloadValue :=
  if key = "user_id" then some (PayloadValue.str p.userId)
  else if key = "document_id" then some (PayloadValue.str p.documentId)
  else if key = "text" then some (PayloadValue.str p.text)
  else none

/-- qdrant equality match: the stored payload value equals the condition's. -/
def matchesCondition (p : QPoint) (c : FieldCondition) : Bool :=
  payloadGet p c.key == some c.matchValue

/-- `Filter(must=conds)` matches when every condition matches. -/
def matchesFilter (p : QPoint) (f : QFilter) : Bool :=
  f.must.all (matchesCondition p)

/-- Descending insertion step for the score ranking. -/
def insertByScore (scoreOf : QPoint → Int) (p : QPoint) : List QPoint → List QPoint
  | [] => [p]
  | q :: rest =>
    if scoreOf q < scoreOf p then p :: q :: rest
    else q :: insertByScore scoreOf p rest

/-- Rank a list of points by similarity score, descending (insertion sort). -/
def sortByScore (scoreOf : QPoint → Int) : List QPoint → List QPoint
  | [] => []
  | p :: rest => insertByScore scoreOf p (sortByScore scoreOf rest)

/-- `client.search`: filter, rank by score descending, drop matches below the
threshold (`none` = no threshold passed), return at most `limit`. -/
def qdrantSearch (store : List QPoint) (scoreOf : QPoint → Int) (flt : QFilter)
    (limit : Nat) (scoreThreshold : Option Int) : List QPoint :=
  ((sortByScore scoreOf
      ((store.filter (fun p => matchesFilter p flt)).filter
        (fun p =>
          match scoreThreshold with
          | some t => decide (t ≤ scoreOf p)
          | none => true))).take limit)

/-- `client.delete(points_selector=flt)`: remove exactly the matching points. -/
def qdrantDelete (store : List QPoint) (flt : QFilter) : List QPoint :=
  store.filter (fun p => !(matchesFilter p flt))

/-- The filter built by `QdrantManager.search_similar` (and, identically, by
`RAGService.search_similar_chunks`): a mandatory `user_id` equality condition
plus an optional `document_id` condition (`if document_ids:` — a `None` or
empty list adds nothing). -/
def searchSimilarFilter (userId : String) (documentIds : Option (List String)) : QFilter :=
  let conds := [{ key := "user_id", matchValue := PayloadValue.str userId : FieldCondition }]
  let conds :=
    match documentIds with
    | some ids =>
      if ids ≠ [] then
        conds ++ [{ key := "document_id", matchValue := PayloadValue.strList ids }]
      else conds
    | none => conds
  { must := conds }

/-- `QdrantManager.search_similar` (`limit or settings.SEARCH_TOP_K`: Python
`or` falls back on `None` and on `0`). -/
def searchSimilar (store : List QPoint) (scoreOf : QPoint → Int) (userId : String)
    (documentIds : Option (List String)) (limit : Option Nat) (searchTopK : Nat)
    (scoreThreshold : Int) : List QPoint :=
  let searchLimit :=
    match limit with
    | some l => if l ≠ 0 then l else searchTopK
    | none => searchTopK
  qdrantSearch store scoreOf (searchSimilarFilter userId documentIds)
    searchLimit (some scoreThreshold)

/-- `QdrantManager.delete_points_by_filter`: `user_id` condition plus optional
`document_id` condition (`if document_id:`). -/
def deletePointsByFilter (store : List QPoint) (userId : String)
    (documentId : Option String) : List QPoint :=
  let conds := [{ key := "user_id", matchValue := PayloadValue.str userId : FieldCondition }]
  let conds :=
    match documentId with
    | some d =>
      if d ≠ "" then conds ++ [{ key := "document_id", matchValue := PayloadValue.str d }]
      else conds
    | none => conds
  qdrantDelete store { must := conds }

/-- One formatted result of `RAGService.search_similar_chunks`. -/
structure SearchResultItem where
  chunkId : String
  score : Int
  text : String
  documentId : String
  chunkIndex : Nat
deriving Repr, DecidableEq

/-- `RAGService.search_similar_chunks`: same owner filter, limit
`top_k or settings.SEARCH_TOP_K`, and no score threshold is passed to
`client.search`. -/
def ragSearchSimilarChunks (store : List QPoint) (scoreOf : QPoint → Int)
    (userId : String) (documentIds : Option (List String)) (topK : Option Nat)
    (searchTopK : Nat) : List SearchResultItem :=
  let searchLimit :=
    match topK with
    | some l => if l ≠ 0 then l else searchTopK
    | none => searchTopK
  (qdrantSearch store scoreOf (searchSimilarFilter userId documentIds)
      searchLimit none).map
    (fun p =>
      { chunkId := p.id, score := scoreOf p, text := p.text,
        documentId := p.documentId, chunkIndex := p.chunkIndex })

/-- `RAGService.delete_document_chunks`: the delete filter contains only a
`document_id` condition — no owner condition is constructed. -/
def ragDeleteDocumentChunks (store : List QPoint) (documentId : String) : List QPoint :=
  qdrantDelete store
    { must := [{ key := "document_id", matchValue := PayloadValue.str documentId }] }

/-- The keyword parameters accepted by `RAGService.search_similar_chunks`
(its full parameter list besides `self`). -/
def searchSimilarChunksParams : List String :=
  ["query", "user_id", "document_ids", "top_k"]

/-- The keyword arguments passed by the search endpoint
(`search_documents` in `app/api/v1/rag.py`) when it calls
`rag_service.search_similar_chunks`. -/
def searchEndpointCallKwargs : List String :=
  ["query", "user_id", "document_ids", "top_k", "score_threshold", "filters"]

/-- Python call semantics: a call raises `TypeError` ("unexpected keyword
argument") when some keyword argument is not among the callee's parameters. -/
def callRaisesTypeError (params kwargs : List String) : Bool :=
  kwargs.any (fun k => !(params.contains k))

/-! ## Document registry and upload service (`app/models/rag_document.py`,
`app/services/rag_upload_service.py`) -/

/-- `DocumentStatus`. -/
inductive DocumentStatus where
  | pending
  | processing
  | completed
  | failed
  | deleted
deriving Repr, DecidableEq

/-- `ProcessingMetrics` (the timing floats are not claim-relevant and are not
modelled). -/
structure ProcessingMetrics where
  chunksCreated : Nat := 0
  errorsEncountered : List String := []
deriving Repr, DecidableEq

/-- `RAGDocument` core fields (datetime fields, tags/category and the
AI-metadata dict are not modelled; the MongoDB `ObjectId` is a `Nat` drawn
from a fresh-id counter). -/
structure RAGDocument where
  id : Nat
  userId : String
  filename : String
  originalFilename : String
  fileHash : String
  fileSize : Nat
  gcsPath : Option String
  status : DocumentStatus
  processingJobId : Option String
  chunksCount : Nat
  embeddingsCreated : Bool
  processingMetrics : ProcessingMetrics
deriving Repr, DecidableEq

/-- `RAGDocument.mark_processing_started`: unconditionally sets the status to
`PROCESSING`; `if job_id:` guards the job-id assignment only. -/
def markProcessingStarted (d : RAGDocument) (jobId : Option String) : RAGDocument :=
  { d with
      status := DocumentStatus.processing
      processingJobId :=
        match jobId with
        | some j => if j ≠ "" then some j else d.processingJobId
        | none => d.processingJobId }

/-- `RAGDocument.mark_processing_completed`: unconditionally sets `COMPLETED`,
the chunk count, the metrics and the embeddings flag. -/
def markProcessingCompleted (d : RAGDocument) (chunksCount : Nat)
    (metrics : ProcessingMetrics) : RAGDocument :=
  { d with
      status := DocumentStatus.completed
      chunksCount := chunksCount
      processingMetrics := metrics
      embeddingsCreated := true }

/-- `RAGDocument.mark_processing_failed`: unconditionally sets `FAILED` and
appends the error message. -/
def markProcessingFailed (d : RAGDocument) (errorMessage : String) : RAGDocument :=
  { d with
      status := DocumentStatus.failed
      processingMetrics :=
        { d.processingMetrics with
            errorsEncountered := d.processingMetrics.errorsEncountered ++ [errorMessage] } }

/-- A persisted `RAGChunk` record (the fields written by
`_process_document_background`). -/
structure RAGChunkRecord where
  documentId : Nat
  userId : String
  chunkIndex : Nat
  chunkId : String
  text : String
  textHash : String
  pageNumber : Nat
  wordCount : Nat
  charCount : Nat
  sentenceCount : Nat
deriving Repr, DecidableEq

/-- A blob-storage object (`gcp_service.upload_file`). -/
structure BlobRecord where
  userId : String
  fileId : Nat
  filename : String
  content : List Nat
deriving Repr, DecidableEq

/-- The persistent state the upload service touches: the document collection,
the chunk collection, blob storage, a fresh-id counter standing for both
`uuid4` and MongoDB ObjectId generation, and the scheduled background tasks
(by document id). -/
structure UploadState where
  docs : List RAGDocument
  chunks : List RAGChunkRecord
  blobs : List BlobRecord
  nextId : Nat
  scheduledTasks : List Nat
deriving Repr, DecidableEq

/-- `RAGUploadService.upload_document`: hash, duplicate lookup
(`find_one(file_hash == h, user_id == u)`, returning the existing document
unchanged on a hit), then validation (raising on failure), blob upload when
GCP is configured, insertion of a fresh `PENDING` document, and scheduling of
the background task when one was passed. -/
def uploadDocument (hashHex : List Nat → String) (gcpInit : Bool)
    (hasBackgroundTasks : Bool) (st : UploadState) (userId : String)
    (fileContent : List Nat) (filename : String) :
    Except String (RAGDocument × UploadState) :=
  let fileHash := generateDocumentHash hashHex fileContent
  match st.docs.find? (fun d => d.fileHash == fileHash && d.userId == userId) with
  | some existing => Except.ok (existing, st)
  | none =>
    let validation := validateDocument fileContent filename
    if validation.valid = false then
      Except.error "Document validation failed"
    else
      let tempFileId := st.nextId
      let gcsPath := if gcpInit then some ("gs:" ++ toString tempFileId) else none
      let blobs' :=
        if gcpInit then
          st.blobs ++ [{ userId := userId, fileId := tempFileId,
                         filename := filename, content := fileContent }]
        else st.blobs
      let doc : RAGDocument :=
        { id := st.nextId
          userId := userId
          filename := toString tempFileId ++ "_" ++ filename
          originalFilename := filename
          fileHash := fileHash
          fileSize := fileContent.length
          gcsPath := gcsPath
          status := DocumentStatus.pending
          processingJobId := none
          chunksCount := 0
          embeddingsCreated := false
          processingMetrics := {} }
      let st' : UploadState :=
        { st with
            docs := st.docs ++ [doc]
            blobs := blobs'
            nextId := st.nextId + 1
            scheduledTasks :=
              if hasBackgroundTasks then st.scheduledTasks ++ [doc.id]
              else st.scheduledTasks }
      Except.ok (doc, st')

/-- The chunk-persistence loop of `_process_document_background`:
`for chunk_idx, chunk_data in enumerate(chunks): insert RAGChunk(...)` —
ordinal `chunk_index` is the enumeration index, in chunker emission order. -/
def persistChunks (documentId : Nat) (userId : String)
    (chunkDatas : List Chunk) : List RAGChunkRecord :=
  chunkDatas.enum.map
    (fun p =>
      { documentId := documentId
        userId := userId
        chunkIndex := p.1
        chunkId := toString documentId ++ "_" ++ toString p.1
        text := p.2.text
        textHash := p.2.textHash
        pageNumber := p.2.page
        wordCount := p.2.wordCount
        charCount := p.2.charCount
        sentenceCount := p.2.sentenceCount })


/-! ## Derived definitions and concrete instances used in the verification -/

/-- Two chunks share a sentence when some sentence string occurs in both
buffers. -/
def sharesSentence (c1 c2 : Chunk) : Bool :=
  c1.sentences.any (fun s => c2.sentences.contains s)

/-- The sentence-level part of `create_chunks` for one page: the loop over an
already-split sentence list followed by the final-buffer emission.
`chunkPage` equals this applied to `splitSentences (cleanText text)`. -/
def chunkSentences (chunkSize overlap : Nat) (textHash : String → String)
    (page : Nat) (ss : List String) : List Chunk :=
  emitChunk textHash page
    (chunkLoop chunkSize overlap textHash page
      { chunks := [], cur := "", curS := [] } ss)

/-- A concrete stand-in for the SHA-256 hex digest, used to instantiate the
abstract digest argument in concrete instances: deterministic, as the real
digest is. -/
def toStringHash : List Nat → String := fun bs => toString bs

/-- A concrete document in the terminal `COMPLETED` state. -/
def completedDoc : RAGDocument :=
  { id := 1, userId := "A", filename := "0_f.txt", originalFilename := "f.txt",
    fileHash := "h", fileSize := 3, gcsPath := none,
    status := DocumentStatus.completed, processingJobId := none,
    chunksCount := 3, embeddingsCreated := true, processingMetrics := {} }

/-- A stored vector point of owner `A` in document `d`. -/
def pointA0 : QPoint :=
  { id := "a_0", userId := "A", documentId := "d", text := "alpha", chunkIndex := 0 }

/-- A stored vector point of owner `B` that carries the same document id `d`. -/
def pointB0 : QPoint :=
  { id := "b_0", userId := "B", documentId := "d", text := "beta", chunkIndex := 0 }

/-- A corpus containing vectors of the two different owners `A` and `B`. -/
def sharedDocStore : List QPoint := [pointA0, pointB0]

/-- A context manager constructed with `max_context_tokens = 100`. -/
def mgr100 : ContextManager := { maxContextTokens := 100 }

/-- A 600-character message body. -/
def big600 : String := ⟨List.replicate 600 'a'⟩

/-- A 592-character message body. -/
def big592 : String := ⟨List.replicate 592 'b'⟩

/-- The empty upload-service state. -/
def emptyUploadState : UploadState :=
  { docs := [], chunks := [], blobs := [], nextId := 0, scheduledTasks := [] }

/-- A document of owner `A` previously registered for the bytes `[1, 2, 3]`. -/
def dupDocA : RAGDocument :=
  { id := 0, userId := "A", filename := "0_good.txt", originalFilename := "good.txt",
    fileHash := toStringHash [1, 2, 3], fileSize := 3, gcsPath := none,
    status := DocumentStatus.completed, processingJobId := none,
    chunksCount := 1, embeddingsCreated := true, processingMetrics := {} }

/-- An upload-service state already holding `dupDocA`. -/
def dupStateA : UploadState :=
  { docs := [dupDocA], chunks := [], blobs := [], nextId := 1, scheduledTasks := [] }


/-- Every message content's token estimate is at most `E`. -/
def MessagesBounded (E : Nat) (msgs : List ModelMessage) : Prop :=
  ∀ msg ∈ msgs, estimateTokens msg.content ≤ E

/-- Session invariant for the budget analysis: message estimates bounded by
`E`, `total_tokens` is the sum of the per-message estimates, the total is
within the budget, and the budget accommodates four `E`-sized messages. -/
def GoodContext (E : Nat) (ctx : ConversationContext) : Prop :=
  MessagesBounded E ctx.messages ∧
  ctx.totalTokens = sumTokens ctx.messages ∧
  ctx.totalTokens ≤ ctx.maxTokens ∧
  4 * E ≤ ctx.maxTokens

/-- Manager invariant: every stored session satisfies `GoodContext`. -/
def GoodManager (E : Nat) (m : ContextManager) : Prop :=
  ∀ sid ctx, findContext m sid = some ctx → GoodContext E ctx

/-- A sequence of `add_message` calls, each `(session id, content, role)`. -/
def addMessages (m : ContextManager) (calls : List (String × String × ModelRole)) :
    ContextManager :=
  calls.foldl (fun acc c => (addMessage acc c.1 c.2.1 c.2.2).1) m

/-- Budget check for one session: `total_tokens ≤ max_tokens` (vacuously true
for an absent session). -/
def budgetOk (m : ContextManager) (sid : String) : Bool :=
  match findContext m sid with
  | some c => decide (c.totalTokens ≤ c.maxTokens)
  | none => true

/-- A well-formed sentence: nonempty and fixed by `strip()`, as the sentence
splitter produces on cleaned nonempty text. -/
def WFsent (s : String) : Prop :=
  s ≠ "" ∧ pyStrip s = s

/-- The contiguous slice of `ss` of length `b` starting at index `a`. -/
def slice (ss : List String) (a b : Nat) : List String :=
  (ss.drop a).take b

/-! ## Theorems -/

/-- Helper: the owner condition heads the filter built by the search paths. -/
theorem searchSimilarFilter_must (userId : String) (documentIds : Option (List String)) :
    ∃ rest, (searchSimilarFilter userId documentIds).must =
      ({ key := "user_id", matchValue := PayloadValue.str userId } : FieldCondition) :: rest := by
  unfold searchSimilarFilter
  cases documentIds with
  | none => exact ⟨[], rfl⟩
  | some ids =>
    by_cases h : ids = []
    · subst h
      exact ⟨[], by simp⟩
    · refine ⟨[{ key := "document_id", matchValue := PayloadValue.strList ids }], ?_⟩
      simp [h]

/-- Helper: a point matching a filter whose owner condition is in the `must`
list has that owner id. -/
theorem userId_of_matches (p : QPoint) (uid : String) (flt : QFilter)
    (hmem : ({ key := "user_id", matchValue := PayloadValue.str uid } : FieldCondition) ∈ flt.must)
    (h : matchesFilter p flt = true) :
    p.userId = uid := by
  unfold matchesFilter at h
  have h0 := (List.all_eq_true.mp h) _ hmem
  simp [matchesCondition, payloadGet] at h0
  exact h0

/-- Membership is preserved by the insertion step. -/
theorem mem_insertByScore (scoreOf : QPoint → Int) (p q : QPoint) (l : List QPoint) :
    q ∈ insertByScore scoreOf p l ↔ q = p ∨ q ∈ l := by
  induction l with
  | nil => simp [insertByScore]
  | cons a t ih =>
    unfold insertByScore
    by_cases h : scoreOf a < scoreOf p
    · simp [h]
    · simp only [if_neg h, List.mem_cons, ih]
      tauto

/-- Membership is preserved by the ranking. -/
theorem mem_sortByScore (scoreOf : QPoint → Int) (q : QPoint) (l : List QPoint) :
    q ∈ sortByScore scoreOf l ↔ q ∈ l := by
  induction l with
  | nil => simp [sortByScore]
  | cons a t ih =>
    unfold sortByScore
    rw [mem_insertByScore, ih]
    simp

/-- Helper: membership in a `qdrantSearch` result implies membership in the
store and a successful filter match. -/
theorem mem_of_mem_qdrantSearch (store : List QPoint) (scoreOf : QPoint → Int)
    (flt : QFilter) (limit : Nat) (thr : Option Int) (p : QPoint)
    (h : p ∈ qdrantSearch store scoreOf flt limit thr) :
    p ∈ store ∧ matchesFilter p flt = true := by
  unfold qdrantSearch at h
  have h1 := List.mem_of_mem_take h
  have h2 := (mem_sortByScore _ _ _).mp h1
  have h3 := List.mem_filter.mp h2
  have h4 := List.mem_filter.mp h3.1
  exact ⟨h4.1, h4.2⟩

/-- C1 counterexample.  `RAGService.delete_document_chunks` — the delete-by-
filter operation run when owner `A` deletes document `d` — builds its filter
from the document id alone.  On a corpus holding a point of owner `B` under
the same document id, the operation removes owner `B`'s vector: the claimed
owner-id equality restriction is absent from this operation. -/
theorem delete_document_chunks_crosses_owner :
    pointB0.userId = "B" ∧ pointB0 ∈ sharedDocStore ∧
    pointA0.userId = "A" ∧ pointA0.documentId = "d" ∧
    pointB0 ∉ ragDeleteDocumentChunks sharedDocStore "d" := by
  decide

/-- C1 (amended): the similarity-search operations restrict their results to
the requesting owner by the mandatory `user_id` equality condition — a search
issued with owner A's id never returns another owner's chunk — and
`QdrantManager.delete_points_by_filter` never removes another owner's
points; but `RAGService.delete_document_chunks` filters by document id only
(see the counterexample), so the owner restriction does not hold for it. -/
theorem vector_ops_owner_filter_amended :
    (∀ (store : List QPoint) (scoreOf : QPoint → Int) (uid : String)
        (docIds : Option (List String)) (limit : Option Nat) (topK : Nat)
        (thr : Int) (p : QPoint),
        p ∈ searchSimilar store scoreOf uid docIds limit topK thr → p.userId = uid) ∧
    (∀ (store : List QPoint) (scoreOf : QPoint → Int) (uid : String)
        (docIds : Option (List String)) (topK : Option Nat) (topKDefault : Nat)
        (r : SearchResultItem),
        r ∈ ragSearchSimilarChunks store scoreOf uid docIds topK topKDefault →
          ∃ p, p ∈ store ∧ p.userId = uid ∧ r.chunkId = p.id ∧
            r.documentId = p.documentId) ∧
    (∀ (store : List QPoint) (uid : String) (docId : Option String) (p : QPoint),
        p ∈ store → p.userId ≠ uid → p ∈ deletePointsByFilter store uid docId) := by
  refine ⟨?_, ?_, ?_⟩
  · intro store scoreOf uid docIds limit topK thr p hp
    obtain ⟨rest, hrest⟩ := searchSimilarFilter_must uid docIds
    have hm := (mem_of_mem_qdrantSearch _ _ _ _ _ _ (by simpa [searchSimilar] using hp)).2
    exact userId_of_matches p uid _ (by rw [hrest]; exact List.mem_cons_self _ _) hm
  · intro store scoreOf uid docIds topK topKDefault r hr
    unfold ragSearchSimilarChunks at hr
    obtain ⟨p, hp, hpr⟩ := List.mem_map.mp hr
    obtain ⟨rest, hrest⟩ := searchSimilarFilter_must uid docIds
    have hm := mem_of_mem_qdrantSearch _ _ _ _ _ _ hp
    have huid : p.userId = uid :=
      userId_of_matches p uid _ (by rw [hrest]; exact List.mem_cons_self _ _) hm.2
    exact ⟨p, hm.1, huid, by rw [← hpr], by rw [← hpr]⟩
  · intro store uid docId p hp hne
    have hcond : matchesCondition p
        { key := "user_id", matchValue := PayloadValue.str uid } = false := by
      simp [matchesCondition, payloadGet]
      exact hne
    have key : ∀ conds : List FieldCondition,
        ({ key := "user_id", matchValue := PayloadValue.str uid } : FieldCondition) ∈ conds →
        p ∈ qdrantDelete store { must := conds } := by
      intro conds hmem
      unfold qdrantDelete
      apply List.mem_filter.mpr
      refine ⟨hp, ?_⟩
      have hflt : matchesFilter p { must := conds } = false := by
        unfold matchesFilter
        exact List.all_eq_false.mpr ⟨_, hmem, by simp [hcond]⟩
      simp [hflt]
    unfold deletePointsByFilter
    cases docId with
    | none => exact key _ (List.mem_cons_self _ _)
    | some d =>
      by_cases hde : d = ""
      · simpa [hde] using key _ (List.mem_cons_self _ _)
      · simpa [hde] using key _ (List.mem_cons_self _ _)

/-- C1 witness: the amended theorem applied to the concrete two-owner corpus:
the point returned by owner A's search is A's own, the item produced by
`search_similar_chunks` for A maps back to A's stored point, and
`delete_points_by_filter` for A keeps B's point. -/
theorem vector_ops_owner_filter_amended_witness :
    pointA0.userId = "A" ∧
    (∃ p, p ∈ sharedDocStore ∧ p.userId = "A" ∧
      ({ chunkId := "a_0", score := 5, text := "alpha", documentId := "d",
         chunkIndex := 0 } : SearchResultItem).chunkId = p.id ∧
      ({ chunkId := "a_0", score := 5, text := "alpha", documentId := "d",
         chunkIndex := 0 } : SearchResultItem).documentId = p.documentId) ∧
    pointB0 ∈ deletePointsByFilter sharedDocStore "A" (some "d") :=
  ⟨vector_ops_owner_filter_amended.1 sharedDocStore (fun _ => 5) "A" none none 8 0
      pointA0 (by decide),
   vector_ops_owner_filter_amended.2.1 sharedDocStore (fun _ => 5) "A" none none 8
      { chunkId := "a_0", score := 5, text := "alpha", documentId := "d", chunkIndex := 0 }
      (by decide),
   vector_ops_owner_filter_amended.2.2 sharedDocStore "A" (some "d") pointB0
      (by decide) (by decide)⟩

/-- C3 counterexample: a `COMPLETED` document passed to
`mark_processing_started` is not refused — its state becomes `PROCESSING`,
an illegal `COMPLETED → PROCESSING` transition. -/
theorem completed_doc_marked_processing :
    completedDoc.status = DocumentStatus.completed ∧
    (markProcessingStarted completedDoc (some "job_1")).status =
      DocumentStatus.processing := by
  constructor
  · rfl
  · rfl

/-- C3 (amended): the lifecycle methods perform no current-state checking at
all — `mark_processing_started`, `mark_processing_completed` and
`mark_processing_failed` unconditionally set the status to `PROCESSING`,
`COMPLETED` and `FAILED` respectively, whatever the document's current
state; no transition is rejected. -/
theorem lifecycle_setters_unconditional :
    ∀ (d : RAGDocument) (j : Option String) (n : Nat) (m : ProcessingMetrics)
      (e : String),
      (markProcessingStarted d j).status = DocumentStatus.processing ∧
      (markProcessingCompleted d n m).status = DocumentStatus.completed ∧
      (markProcessingFailed d e).status = DocumentStatus.failed :=
  fun _ _ _ _ _ => ⟨rfl, rfl, rfl⟩

/-- C5: the search endpoint (`search_documents`) forwards `score_threshold`
(and `filters`) as keyword arguments to `RAGService.search_similar_chunks`,
whose parameter list does not contain them, so every such call — in
particular a search with `score_threshold=0.9` — raises `TypeError` instead
of returning a threshold-filtered (possibly empty) result list. -/
theorem search_threshold_kwarg_type_error :
    callRaisesTypeError searchSimilarChunksParams searchEndpointCallKwargs = true ∧
    searchEndpointCallKwargs.contains "score_threshold" = true ∧
    searchSimilarChunksParams.contains "score_threshold" = false := by
  decide

/-- C10: the duplicate check in `upload_document` runs before validation and
before any write: when a document with the same content hash already exists
for the owner, that document is returned and the state (documents, chunks,
blob storage, scheduled tasks) is returned unchanged — even when the
submitted filename would fail validation. -/
theorem duplicate_check_before_validation
    (hashHex : List Nat → String) (gcpInit hasBg : Bool) (st : UploadState)
    (userId filename : String) (content : List Nat) (d : RAGDocument)
    (hfind : st.docs.find?
      (fun d' => d'.fileHash == hashHex content && d'.userId == userId) = some d)
    (hbad : (validateDocument content filename).valid = false) :
    uploadDocument hashHex gcpInit hasBg st userId content filename =
      Except.ok (d, st) := by
  simp only [uploadDocument, generateDocumentHash, hfind]

/-- C10 witness: re-uploading the bytes `[1, 2, 3]` already registered for
owner `A`, under the unsupported filename `evil.exe`, succeeds with the
existing document and leaves the state untouched. -/
theorem duplicate_check_before_validation_witness :
    uploadDocument toStringHash true true dupStateA "A" [1, 2, 3] "evil.exe" =
      Except.ok (dupDocA, dupStateA) :=
  duplicate_check_before_validation toStringHash true true dupStateA "A"
    "evil.exe" [1, 2, 3] dupDocA (by decide) (by decide)


/-- C2: registration is idempotent on content hash per owner.  Starting from
a state with no document for `(hash(content), userA)` nor
`(hash(content), userB)`: the first upload for `userA` registers a document
`d1`; a second upload of byte-identical content for `userA` (under any
filename) returns exactly `d1` and leaves the state — documents, chunks,
blobs, scheduled tasks — unchanged, creating nothing; an upload of the same
bytes for the different owner `userB` yields a distinct document. -/
theorem upload_idempotent_per_owner
    (hashHex : List Nat → String) (gcpInit hasBg : Bool) (st0 : UploadState)
    (userA userB : String) (content : List Nat) (fn1 fn2 fn3 : String)
    (hA : st0.docs.find?
      (fun d => d.fileHash == hashHex content && d.userId == userA) = none)
    (hB : st0.docs.find?
      (fun d => d.fileHash == hashHex content && d.userId == userB) = none)
    (hAB : userA ≠ userB)
    (hv1 : (validateDocument content fn1).valid = true)
    (hv3 : (validateDocument content fn3).valid = true) :
    ∃ d1 st1 d2 st2,
      uploadDocument hashHex gcpInit hasBg st0 userA content fn1 =
        Except.ok (d1, st1) ∧
      uploadDocument hashHex gcpInit hasBg st1 userA content fn2 =
        Except.ok (d1, st1) ∧
      uploadDocument hashHex gcpInit hasBg st1 userB content fn3 =
        Except.ok (d2, st2) ∧
      d1.userId = userA ∧ d2.userId = userB ∧ d1.id ≠ d2.id := by
  cases h1 : uploadDocument hashHex gcpInit hasBg st0 userA content fn1 with
  | error e =>
    exfalso
    simp [uploadDocument, generateDocumentHash, hA, hv1] at h1
  | ok p =>
    obtain ⟨d1, st1⟩ := p
    have h1' := h1
    simp only [uploadDocument, generateDocumentHash, hA, hv1, Bool.true_eq_false,
      if_false, Except.ok.injEq, Prod.mk.injEq] at h1'
    obtain ⟨hd1, hst1⟩ := h1'
    subst hd1
    subst hst1
    have hBeqAB : (userA == userB) = false := beq_eq_false_iff_ne.mpr hAB
    have hfind1 : List.find?
        (fun d => d.fileHash == hashHex content && d.userId == userA)
        (st0.docs ++
          [{ id := st0.nextId, userId := userA,
             filename := toString st0.nextId ++ "_" ++ fn1, originalFilename := fn1,
             fileHash := hashHex content, fileSize := content.length,
             gcsPath := if gcpInit = true then some ("gs:" ++ toString st0.nextId) else none,
             status := DocumentStatus.pending, processingJobId := none,
             chunksCount := 0, embeddingsCreated := false,
             processingMetrics := { chunksCreated := 0, errorsEncountered := [] } }]) =
        some { id := st0.nextId, userId := userA,
               filename := toString st0.nextId ++ "_" ++ fn1, originalFilename := fn1,
               fileHash := hashHex content, fileSize := content.length,
               gcsPath := if gcpInit = true then some ("gs:" ++ toString st0.nextId) else none,
               status := DocumentStatus.pending, processingJobId := none,
               chunksCount := 0, embeddingsCreated := false,
               processingMetrics := { chunksCreated := 0, errorsEncountered := [] } } := by
      rw [List.find?_append, hA]
      simp [List.find?]
    have hfind2 : List.find?
        (fun d => d.fileHash == hashHex content && d.userId == userB)
        (st0.docs ++
          [{ id := st0.nextId, userId := userA,
             filename := toString st0.nextId ++ "_" ++ fn1, originalFilename := fn1,
             fileHash := hashHex content, fileSize := content.length,
             gcsPath := if gcpInit = true then some ("gs:" ++ toString st0.nextId) else none,
             status := DocumentStatus.pending, processingJobId := none,
             chunksCount := 0, embeddingsCreated := false,
             processingMetrics := { chunksCreated := 0, errorsEncountered := [] } }]) = none := by
      rw [List.find?_append, hB]
      simp [List.find?, hBeqAB]
    cases h3 : uploadDocument hashHex gcpInit hasBg
        { docs := st0.docs ++
            [{ id := st0.nextId, userId := userA,
               filename := toString st0.nextId ++ "_" ++ fn1, originalFilename := fn1,
               fileHash := hashHex content, fileSize := content.length,
               gcsPath := if gcpInit = true then some ("gs:" ++ toString st0.nextId) else none,
               status := DocumentStatus.pending, processingJobId := none,
               chunksCount := 0, embeddingsCreated := false,
               processingMetrics := { chunksCreated := 0, errorsEncountered := [] } }],
          chunks := st0.chunks,
          blobs := if gcpInit = true then
              st0.blobs ++ [{ userId := userA, fileId := st0.nextId,
                              filename := fn1, content := content }]
            else st0.blobs,
          nextId := st0.nextId + 1,
          scheduledTasks := if hasBg = true then st0.scheduledTasks ++ [st0.nextId]
            else st0.scheduledTasks }
        userB content fn3 with
    | error e =>
      exfalso
      simp only [uploadDocument, generateDocumentHash] at h3
      rw [hfind2] at h3
      simp [hv3] at h3
    | ok q =>
      obtain ⟨d2, st2⟩ := q
      have h3' := h3
      simp only [uploadDocument, generateDocumentHash] at h3'
      rw [hfind2] at h3'
      simp only [hv3, Bool.true_eq_false, if_false, Except.ok.injEq,
        Prod.mk.injEq] at h3'
      obtain ⟨hd2, hst2⟩ := h3'
      subst hd2
      subst hst2
      refine Exists.intro _ (Exists.intro _ (Exists.intro _ (Exists.intro _
        ⟨rfl, ?_, h3, rfl, rfl, ?_⟩)))
      · simp only [uploadDocument, generateDocumentHash]
        rw [hfind1]
      · simp

/-- C2 witness: the scenario run concretely from the empty state: owner `A`
uploads `[1, 2, 3]` twice and owner `B` uploads the same bytes once. -/
theorem upload_idempotent_per_owner_witness :
    ∃ d1 st1 d2 st2,
      uploadDocument toStringHash true true emptyUploadState "A" [1, 2, 3] "a.txt" =
        Except.ok (d1, st1) ∧
      uploadDocument toStringHash true true st1 "A" [1, 2, 3] "again.txt" =
        Except.ok (d1, st1) ∧
      uploadDocument toStringHash true true st1 "B" [1, 2, 3] "a.txt" =
        Except.ok (d2, st2) ∧
      d1.userId = "A" ∧ d2.userId = "B" ∧ d1.id ≠ d2.id :=
  upload_idempotent_per_owner toStringHash true true emptyUploadState "A" "B"
    [1, 2, 3] "a.txt" "again.txt" "a.txt" (by decide) (by decide) (by decide)
    (by decide) (by decide)


/-- Helper: after `self.contexts[session_id] = ctx`, looking up `session_id`
yields `ctx`. -/
theorem findContext_setContext_self (m : ContextManager) (sid : String)
    (ctx : ConversationContext) :
    findContext (setContext m sid ctx) sid = some ctx := by
  unfold findContext setContext
  cases hf : m.contexts.find? (fun p => p.1 == sid) with
  | some v =>
    simp only [hf, Option.isSome_some, if_true]
    have key : ∀ (l : List (String × ConversationContext)) (v : String × ConversationContext),
        l.find? (fun p => p.1 == sid) = some v →
        ((l.map (fun p => if p.1 == sid then (sid, ctx) else p)).find?
          (fun p => p.1 == sid)).map (fun p => p.2) = some ctx := by
      intro l
      induction l with
      | nil => intro v hv; simp at hv
      | cons a t ih =>
        intro v hv
        rw [List.map_cons]
        by_cases ha : (a.1 == sid) = true
        · rw [if_pos ha]
          simp [List.find?_cons]
        · rw [if_neg ha]
          have ha' : (a.1 == sid) = false := by simpa using ha
          simp only [List.find?_cons, ha', cond_false] at hv ⊢
          exact ih v hv
    exact key m.contexts v hf
  | none =>
    simp only [hf, Option.isSome_none, Bool.false_eq_true, if_false]
    rw [List.find?_append, hf]
    simp [List.find?]

/-- Helper: other sessions are untouched by `self.contexts[session_id] = ctx`. -/
theorem findContext_setContext_ne (m : ContextManager) (sid sid' : String)
    (ctx : ConversationContext) (h : sid' ≠ sid) :
    findContext (setContext m sid ctx) sid' = findContext m sid' := by
  unfold findContext setContext
  have hb : (sid == sid') = false := beq_eq_false_iff_ne.mpr (Ne.symm h)
  cases hf : m.contexts.find? (fun p => p.1 == sid) with
  | some v =>
    simp only [hf, Option.isSome_some, if_true]
    congr 1
    induction m.contexts with
    | nil => simp
    | cons a t ih =>
      rw [List.map_cons]
      by_cases ha : (a.1 == sid) = true
      · have ha' : (a.1 == sid') = false := by
          have haeq : a.1 = sid := by simpa using ha
          rw [haeq]
          exact hb
        rw [if_pos ha]
        simp only [List.find?_cons, ha', hb, cond_false]
        exact ih
      · rw [if_neg ha]
        by_cases ha' : (a.1 == sid') = true
        · simp only [List.find?_cons, ha', cond_true]
        · have ha'' : (a.1 == sid') = false := by simpa using ha'
          simp only [List.find?_cons, ha'', cond_false]
          exact ih
  | none =>
    simp only [hf, Option.isSome_none, Bool.false_eq_true, if_false]
    rw [List.find?_append]
    cases hf' : m.contexts.find? (fun p => p.1 == sid') with
    | some w => simp [hf']
    | none =>
      simp only [hf', Option.none_or]
      simp [List.find?, hb]

/-- Helper: `add_message` always returns `True`. -/
theorem addMessage_returns_true (m : ContextManager) (sid content : String)
    (role : ModelRole) : (addMessage m sid content role).2 = true := by
  simp only [addMessage]
  split <;> rfl

/-- C9 counterexample: `add_message` on an unknown session id with a large
message does not leave the session as `[system message, added message]`:
the compression pass duplicates the system message, leaving three messages
(`[system, system, user]`).  Manager constructed with
`max_context_tokens = 100`; the 592-character message estimates to 148
tokens. -/
theorem add_message_unknown_session_three_messages :
    findContext mgr100 "s" = none ∧
    (addMessage mgr100 "s" big592 ModelRole.user).2 = true ∧
    ((findContext (addMessage mgr100 "s" big592 ModelRole.user).1 "s").map
      (fun c => c.messages.map (fun msg => msg.role))) =
      some [ModelRole.system, ModelRole.system, ModelRole.user] := by
  refine ⟨rfl, addMessage_returns_true mgr100 "s" big592 ModelRole.user, ?_⟩
  set_option maxRecDepth 40000 in decide

/-- C9 (amended): `add_message` on an unknown session id always succeeds and
returns `True`, first creating the session with the default system prompt;
whenever the default prompt's and the message's token estimates fit the
budget together (so no compression runs), the resulting session holds
exactly the system message followed by the added message. -/
theorem add_message_unknown_session_amended (m : ContextManager)
    (sid content : String) (role : ModelRole)
    (hnew : findContext m sid = none)
    (hfit : estimateTokens defaultSystemPrompt + estimateTokens content ≤
      m.maxContextTokens) :
    (addMessage m sid content role).2 = true ∧
    findContext (addMessage m sid content role).1 sid =
      some { sessionId := sid
             messages := [{ role := ModelRole.system, content := defaultSystemPrompt },
                          { role := role, content := content }]
             totalTokens := estimateTokens defaultSystemPrompt + estimateTokens content
             maxTokens := m.maxContextTokens
             systemPrompt := defaultSystemPrompt } := by
  have hnotsome : (findContext m sid).isSome = false := by rw [hnew]; rfl
  have hcreate : findContext (createSessionWith m sid none) sid =
      some { sessionId := sid
             messages := [{ role := ModelRole.system, content := defaultSystemPrompt }]
             totalTokens := estimateTokens defaultSystemPrompt
             maxTokens := m.maxContextTokens
             systemPrompt := defaultSystemPrompt } := by
    unfold createSessionWith
    exact findContext_setContext_self m sid _
  refine ⟨addMessage_returns_true m sid content role, ?_⟩
  unfold addMessage
  simp only [hnotsome, Bool.false_eq_true, if_false]
  rw [hcreate]
  dsimp only
  rw [if_neg (by omega)]
  exact findContext_setContext_self _ sid _

/-- C9 witness: the amended theorem at the default manager and the message
"hello" (121 tokens total against the 8000 budget). -/
theorem add_message_unknown_session_amended_witness :
    (addMessage { } "s" "hello" ModelRole.user).2 = true ∧
    findContext (addMessage { } "s" "hello" ModelRole.user).1 "s" =
      some { sessionId := "s"
             messages := [{ role := ModelRole.system, content := defaultSystemPrompt },
                          { role := ModelRole.user, content := "hello" }]
             totalTokens := estimateTokens defaultSystemPrompt + estimateTokens "hello"
             maxTokens := ContextManager.maxContextTokens { }
             systemPrompt := defaultSystemPrompt } :=
  add_message_unknown_session_amended { } "s" "hello" ModelRole.user rfl
    (by set_option maxRecDepth 40000 in decide)


/-- Helper: an element failing the predicate survives `dropWhile`. -/
theorem mem_dropWhile_of_mem (p : Char → Bool) (l : List Char) (x : Char)
    (hx : x ∈ l) (hp : p x = false) : x ∈ l.dropWhile p := by
  induction l with
  | nil => cases hx
  | cons a t ih =>
    rw [List.dropWhile_cons]
    by_cases hpa : p a = true
    · rw [if_pos hpa]
      rcases List.mem_cons.mp hx with rfl | hxt
      · rw [hp] at hpa
        cases hpa
      · exact ih hxt
    · rw [if_neg hpa]
      exact hx

/-- Helper: a list containing a non-whitespace character does not strip to
the empty list. -/
theorem pyStripList_ne_nil (l : List Char) (x : Char) (hx : x ∈ l)
    (hns : isPySpace x = false) : pyStripList l ≠ [] := by
  unfold pyStripList
  have h1 : x ∈ l.dropWhile isPySpace := mem_dropWhile_of_mem _ _ _ hx hns
  have h2 : x ∈ (l.dropWhile isPySpace).reverse := List.mem_reverse.mpr h1
  have h3 : x ∈ (l.dropWhile isPySpace).reverse.dropWhile isPySpace :=
    mem_dropWhile_of_mem _ _ _ h2 hns
  have h4 : x ∈ ((l.dropWhile isPySpace).reverse.dropWhile isPySpace).reverse :=
    List.mem_reverse.mpr h3
  exact List.ne_nil_of_mem h4

/-- Helper: `Char.toLower` fixes the whitespace characters. -/
theorem toLower_of_pySpace (c : Char) (h : isPySpace c = true) :
    Char.toLower c = c := by
  unfold isPySpace at h
  simp only [Bool.or_eq_true, decide_eq_true_eq] at h
  rcases h with (((((h | h) | h) | h) | h) | h) <;> subst h <;> decide

/-- Helper: a filename whose lowercasing ends in a supported extension is
neither empty nor whitespace-only. -/
theorem filename_nonblank_of_ext (filename : String)
    (h : supportedExtensions.any
      (fun ext => pyEndsWith (pyLower filename) ext) = true) :
    ¬(filename = "" ∨ pyStrip filename = "") := by
  rw [List.any_eq_true] at h
  obtain ⟨ext, hmem, hsuf⟩ := h
  have hsuf' : ext.data <:+ (pyLower filename).data :=
    List.isSuffixOf_iff_suffix.mp hsuf
  obtain ⟨t, ht⟩ := hsuf'
  have hext : ∃ e ∈ ext.data, isPySpace e = false := by
    fin_cases hmem <;> exact ⟨'.', by decide, by decide⟩
  obtain ⟨e, he, hens⟩ := hext
  have hmem2 : e ∈ (pyLower filename).data := by
    rw [← ht]
    exact List.mem_append_right t he
  have hmem3 : e ∈ filename.data.map Char.toLower := hmem2
  obtain ⟨c, hc, hce⟩ := List.mem_map.mp hmem3
  have hcns : isPySpace c = false := by
    by_contra hcs
    have hcs' : isPySpace c = true := by simpa using hcs
    rw [toLower_of_pySpace c hcs'] at hce
    rw [hce] at hcs'
    rw [hens] at hcs'
    cases hcs'
  intro hor
  rcases hor with h0 | h0
  · rw [h0] at hc
    cases hc
  · have hne := pyStripList_ne_nil filename.data c hc hcns
    apply hne
    have : (pyStrip filename).data = pyStripList filename.data := rfl
    rw [h0] at this
    exact this.symm

/-- C8 counterexample: the validation result does not carry the content
digest — two different byte contents of equal length yield the identical
(valid) result, so no field of the result can be the digest of the content. -/
theorem validation_result_lacks_digest :
    ([0] : List Nat) ≠ [1] ∧
    validateDocument [0] "a.txt" = validateDocument [1] "a.txt" ∧
    (validateDocument [0] "a.txt").valid = true := by
  refine ⟨by decide, ?_, by decide⟩
  decide

/-- C8 (amended): `validate_document` is a total function returning a result
record (it never raises); the result is valid exactly when the content is
non-empty, at most the 50 MB ceiling, and the lowercased filename ends with
a supported extension; the result carries the filename, the byte size, and
the list of violation reasons (empty exactly when valid) — the content
digest is not part of the result and is computed by the separate
`generate_document_hash`. -/
theorem validate_document_amended (content : List Nat) (filename : String) :
    ((validateDocument content filename).valid = true ↔
      (content.length ≠ 0 ∧ content.length ≤ maxDocumentSize ∧
        supportedExtensions.any
          (fun ext => pyEndsWith (pyLower filename) ext) = true)) ∧
    (validateDocument content filename).filename = filename ∧
    (validateDocument content filename).fileSize = content.length ∧
    ((validateDocument content filename).valid = true ↔
      (validateDocument content filename).errors = []) := by
  by_cases hext : supportedExtensions.any
      (fun ext => pyEndsWith (pyLower filename) ext) = true
  · have hfn := filename_nonblank_of_ext filename hext
    simp only [validateDocument]
    rw [if_neg hfn, if_neg (not_not_intro hext)]
    by_cases hsz : content.length > maxDocumentSize
    · rw [if_pos hsz]
      by_cases hz : content.length = 0
      · rw [if_pos hz]
        refine ⟨?_, rfl, rfl, by simp⟩
        simp only [Bool.false_eq_true, false_iff]
        rintro ⟨hA, hB, hC⟩
        exact hA hz
      · rw [if_neg hz]
        refine ⟨?_, rfl, rfl, by simp⟩
        simp only [Bool.false_eq_true, false_iff]
        rintro ⟨hA, hB, hC⟩
        omega
    · rw [if_neg hsz]
      by_cases hz : content.length = 0
      · rw [if_pos hz]
        refine ⟨?_, rfl, rfl, by simp⟩
        simp only [Bool.false_eq_true, false_iff]
        rintro ⟨hA, hB, hC⟩
        exact hA hz
      · rw [if_neg hz]
        refine ⟨?_, rfl, rfl, by simp⟩
        exact ⟨fun _ => ⟨hz, by omega, hext⟩, fun _ => rfl⟩
  · simp only [validateDocument]
    rw [if_pos hext]
    by_cases hsz : content.length > maxDocumentSize <;>
      [rw [if_pos hsz]; rw [if_neg hsz]] <;>
    (by_cases hz : content.length = 0 <;>
      [rw [if_pos hz]; rw [if_neg hz]]) <;>
    (by_cases hfn : filename = "" ∨ pyStrip filename = "" <;>
      [rw [if_pos hfn]; rw [if_neg hfn]]) <;>
    refine ⟨?_, rfl, rfl, by simp⟩ <;>
    · simp only [Bool.false_eq_true, false_iff]
      rintro ⟨hA, hB, hC⟩
      exact hext hC

/-- C8 witness: the amended theorem evaluated at the concrete valid input
`([1, 2, 3], "a.txt")`. -/
theorem validate_document_amended_witness :
    ((validateDocument [1, 2, 3] "a.txt").valid = true ↔
      (([1, 2, 3] : List Nat).length ≠ 0 ∧
        ([1, 2, 3] : List Nat).length ≤ maxDocumentSize ∧
        supportedExtensions.any
          (fun ext => pyEndsWith (pyLower "a.txt") ext) = true)) ∧
    (validateDocument [1, 2, 3] "a.txt").filename = "a.txt" ∧
    (validateDocument [1, 2, 3] "a.txt").fileSize = ([1, 2, 3] : List Nat).length ∧
    ((validateDocument [1, 2, 3] "a.txt").valid = true ↔
      (validateDocument [1, 2, 3] "a.txt").errors = []) :=
  validate_document_amended [1, 2, 3] "a.txt"


/-- Helper: token sums add over list append. -/
theorem sumTokens_append (a b : List ModelMessage) :
    sumTokens (a ++ b) = sumTokens a + sumTokens b := by
  simp [sumTokens]

/-- Helper: a bounded message list's token sum is at most `length * E`. -/
theorem sumTokens_le_of_bounded (E : Nat) (l : List ModelMessage)
    (h : ∀ msg ∈ l, estimateTokens msg.content ≤ E) :
    sumTokens l ≤ l.length * E := by
  induction l with
  | nil => simp [sumTokens]
  | cons a t ih =>
    have ha := h a (List.mem_cons_self _ _)
    have ht := ih (fun msg hm => h msg (List.mem_cons_of_mem _ hm))
    have : sumTokens (a :: t) = estimateTokens a.content + sumTokens t := by
      simp [sumTokens]
    rw [this, List.length_cons]
    calc estimateTokens a.content + sumTokens t ≤ E + t.length * E := by omega
    _ = (t.length + 1) * E := by ring

/-- Helper: lowercasing preserves the character count. -/
theorem pyLower_length (s : String) : (pyLower s).length = s.length := by
  show (s.data.map Char.toLower).length = s.data.length
  exact List.length_map s.data Char.toLower

/-- Helper: a summary topic is at most 53 characters. -/
theorem summaryTopic_length_le (m : ModelMessage) :
    (summaryTopic m).length ≤ 53 := by
  unfold summaryTopic
  by_cases h : (pyLower m.content).length > 50
  · rw [if_pos h]
    rw [String.length_append]
    have : (pyTake (pyLower m.content) 50).length = 50 := by
      show ((pyLower m.content).data.take 50).length = 50
      rw [List.length_take]
      have : (pyLower m.content).data.length = (pyLower m.content).length := rfl
      omega
    rw [this]
    decide
  · rw [if_neg h]
    omega

/-- Helper: joining at most `n` strings of length at most 53 with `", "`. -/
theorem pyJoin_comma_length_le (l : List String)
    (h : ∀ x ∈ l, x.length ≤ 53) :
    (pyJoin ", " l).length ≤ 55 * l.length := by
  induction l with
  | nil => simp [pyJoin]
  | cons a t ih =>
    cases t with
    | nil =>
      have := h a (List.mem_cons_self _ _)
      simpa [pyJoin] using by omega
    | cons b r =>
      have ha := h a (List.mem_cons_self _ _)
      have ht := ih (fun x hx => h x (List.mem_cons_of_mem _ hx))
      show (a ++ ", " ++ pyJoin ", " (b :: r)).length ≤ 55 * (b :: r).length + 55
      rw [String.length_append, String.length_append]
      have h2 : (", " : String).length = 2 := by decide
      omega

/-- Helper: the conversation summary is at most 176 characters. -/
theorem summary_length_le (msgs : List ModelMessage) :
    (createConversationSummary msgs).length ≤ 176 := by
  unfold createConversationSummary
  by_cases hm : msgs = []
  · rw [if_pos hm]
    decide
  · rw [if_neg hm]
    set topics := (msgs.filter (fun m => m.role == ModelRole.user)).map summaryTopic with ht
    by_cases htop : topics ≠ []
    · rw [if_pos htop]
      rw [String.length_append]
      have hlen : (pyJoin ", " (topics.take 3)).length ≤ 55 * (topics.take 3).length := by
        apply pyJoin_comma_length_le
        intro x hx
        have := List.mem_of_mem_take hx
        rw [ht] at this
        obtain ⟨m0, hm0, hmx⟩ := List.mem_map.mp this
        rw [← hmx]
        exact summaryTopic_length_le m0
      have htake : (topics.take 3).length ≤ 3 := by
        rw [List.length_take]
        omega
      have h11 : ("Discussed: " : String).length = 11 := by decide
      omega
    · rw [if_neg htop]
      decide

/-- Helper: the synthetic summary message's token estimate is at most 52. -/
theorem summaryMsg_est_le (msgs : List ModelMessage) :
    estimateTokens
      ("[Previous conversation summary: " ++ createConversationSummary msgs ++ "]") ≤ 52 := by
  have h1 := summary_length_le msgs
  have h2 : ("[Previous conversation summary: " : String).length = 32 := by decide
  have h3 : ("]" : String).length = 1 := by decide
  unfold estimateTokens charsPerToken
  rw [String.length_append, String.length_append, h2, h3]
  omega


/-- Helper: the empty message list is bounded. -/
theorem MessagesBounded.nil (E : Nat) : MessagesBounded E [] :=
  fun _ hm => absurd hm (List.not_mem_nil _)

/-- Helper: bounded lists append. -/
theorem MessagesBounded.append {E : Nat} {a b : List ModelMessage}
    (ha : MessagesBounded E a) (hb : MessagesBounded E b) :
    MessagesBounded E (a ++ b) := by
  intro msg hm
  rcases List.mem_append.mp hm with h | h
  · exact ha msg h
  · exact hb msg h

/-- Helper: a singleton of a bounded message is bounded. -/
theorem MessagesBounded.singleton {E : Nat} {x : ModelMessage}
    (h : estimateTokens x.content ≤ E) : MessagesBounded E [x] := by
  intro msg hm
  rw [List.mem_singleton.mp hm]
  exact h

/-- Helper: token sum of a singleton. -/
theorem sumTokens_singleton (x : ModelMessage) :
    sumTokens [x] = estimateTokens x.content := by
  simp [sumTokens]

/-- Helper: `_compress_context` preserves the session invariant and leaves
room for the incoming message: after compression with `needed ≤ E` tokens
pending, the new total plus `needed` fits the budget. -/
theorem compress_good (E : Nat) (ctx : ConversationContext) (needed : Nat)
    (hE : 52 ≤ E)
    (hb : MessagesBounded E ctx.messages)
    (h4E : 4 * E ≤ ctx.maxTokens)
    (hneed : needed ≤ E) :
    MessagesBounded E (compressContext ctx needed).messages ∧
    (compressContext ctx needed).totalTokens =
      sumTokens (compressContext ctx needed).messages ∧
    (compressContext ctx needed).totalTokens + needed ≤ ctx.maxTokens ∧
    (compressContext ctx needed).maxTokens = ctx.maxTokens := by
  have hsum2 : sumTokens
      (ctx.messages.drop (ctx.messages.length - min 2 ctx.messages.length)) ≤ 2 * E := by
    have h1 := sumTokens_le_of_bounded E
      (ctx.messages.drop (ctx.messages.length - min 2 ctx.messages.length))
      (fun msg hm => hb msg (List.drop_subset _ _ hm))
    have h2 : (ctx.messages.drop
        (ctx.messages.length - min 2 ctx.messages.length)).length ≤ 2 := by
      rw [List.length_drop]
      omega
    calc sumTokens (ctx.messages.drop (ctx.messages.length - min 2 ctx.messages.length)) ≤
        (ctx.messages.drop (ctx.messages.length - min 2 ctx.messages.length)).length * E :=
          h1
      _ ≤ 2 * E := Nat.mul_le_mul_right E h2
  have hbrec : MessagesBounded E
      (ctx.messages.drop (ctx.messages.length - min 6 ctx.messages.length)) :=
    fun msg hm => hb msg (List.drop_subset _ _ hm)
  have hbrec2 : MessagesBounded E
      (ctx.messages.drop (ctx.messages.length - min 2 ctx.messages.length)) :=
    fun msg hm => hb msg (List.drop_subset _ _ hm)
  rcases hmsgs : ctx.messages with _ | ⟨m0, rest⟩
  · rw [hmsgs] at hb hsum2 hbrec hbrec2
    unfold compressContext
    rw [hmsgs]
    simp only [List.length_nil, List.drop_nil, List.take_nil]
    split_ifs with hcond hlong hsummary
    · exact absurd hlong (by omega)
    · exact absurd hlong (by omega)
    · refine ⟨MessagesBounded.nil E, rfl, ?_, rfl⟩
      try dsimp only
      have hz : sumTokens ([] : List ModelMessage) = 0 := by simp [sumTokens]
      have hz2 : sumTokens (([] : List ModelMessage) ++ []) = 0 := by simp [sumTokens]
      omega
    · refine ⟨MessagesBounded.nil E, rfl, ?_, rfl⟩
      try dsimp only
      have hz : sumTokens ([] : List ModelMessage) = 0 := by simp [sumTokens]
      have hz2 : sumTokens (([] : List ModelMessage) ++ []) = 0 := by simp [sumTokens]
      omega
  · rw [hmsgs] at hb hsum2 hbrec hbrec2
    have hm0 : estimateTokens m0.content ≤ E := hb m0 (List.mem_cons_self _ _)
    by_cases hrole : (m0.role == ModelRole.system) = true
    · simp only [compressContext, hmsgs, hrole, eq_self_iff_true, if_true]
      split_ifs with hcond hlong hsummary
      · -- light branch with a summary message
        refine ⟨?_, rfl, ?_, rfl⟩
        · exact (MessagesBounded.append (MessagesBounded.append
            (MessagesBounded.singleton hm0)
            (MessagesBounded.singleton (le_trans (summaryMsg_est_le _) hE))) hbrec)
        · try dsimp only
          simp only [sumTokens_append, sumTokens_singleton]
          try dsimp only
          have e2 := summaryMsg_est_le
            (((m0 :: rest).take ((m0 :: rest).length - 6)).drop 1)
          omega
      · -- light branch, long history but empty summary
        refine ⟨?_, rfl, ?_, rfl⟩
        · exact MessagesBounded.append (MessagesBounded.singleton hm0) hbrec
        · try dsimp only
          simp only [sumTokens_append, sumTokens_singleton]
          try dsimp only
          omega
      · -- light branch, short history: no summary considered
        refine ⟨?_, rfl, ?_, rfl⟩
        · exact MessagesBounded.append (MessagesBounded.singleton hm0) hbrec
        · try dsimp only
          simp only [sumTokens_append, sumTokens_singleton]
          try dsimp only
          omega
      · -- aggressive branch
        refine ⟨?_, rfl, ?_, rfl⟩
        · exact MessagesBounded.append (MessagesBounded.singleton hm0) hbrec2
        · try dsimp only
          simp only [sumTokens_append, sumTokens_singleton]
          try dsimp only
          omega
    · have hrole2 : (m0.role == ModelRole.system) = false := by
        simpa using hrole
      simp only [compressContext, hmsgs, hrole2, Bool.false_eq_true, if_false]
      split_ifs with hcond hlong hsummary
      · -- light branch with a summary message, no protected system message
        refine ⟨?_, rfl, ?_, rfl⟩
        · exact (MessagesBounded.append (MessagesBounded.append
            (MessagesBounded.nil E)
            (MessagesBounded.singleton (le_trans (summaryMsg_est_le _) hE))) hbrec)
        · try dsimp only
          simp only [sumTokens_append, sumTokens_singleton]
          try dsimp only
          have e2 := summaryMsg_est_le ((m0 :: rest).take ((m0 :: rest).length - 6))
          have hz : sumTokens ([] : List ModelMessage) = 0 := by simp [sumTokens]
          omega
      · refine ⟨?_, rfl, ?_, rfl⟩
        · exact MessagesBounded.append (MessagesBounded.nil E) hbrec
        · try dsimp only
          simp only [sumTokens_append, sumTokens_singleton]
          try dsimp only
          have hz : sumTokens ([] : List ModelMessage) = 0 := by simp [sumTokens]
          omega
      · refine ⟨?_, rfl, ?_, rfl⟩
        · exact MessagesBounded.append (MessagesBounded.nil E) hbrec
        · try dsimp only
          simp only [sumTokens_append, sumTokens_singleton]
          try dsimp only
          have hz : sumTokens ([] : List ModelMessage) = 0 := by simp [sumTokens]
          omega
      · refine ⟨?_, rfl, ?_, rfl⟩
        · exact MessagesBounded.append (MessagesBounded.nil E) hbrec2
        · try dsimp only
          simp only [sumTokens_append, sumTokens_singleton]
          try dsimp only
          have hz : sumTokens ([] : List ModelMessage) = 0 := by simp [sumTokens]
          omega


/-- Helper: `setContext` does not change the manager's budget parameter. -/
theorem setContext_maxContextTokens (m : ContextManager) (sid : String)
    (ctx : ConversationContext) :
    (setContext m sid ctx).maxContextTokens = m.maxContextTokens := by
  unfold setContext
  split <;> rfl

/-- Helper: `create_session` does not change the manager's budget parameter. -/
theorem createSessionWith_maxContextTokens (m : ContextManager) (sid : String)
    (p : Option String) :
    (createSessionWith m sid p).maxContextTokens = m.maxContextTokens :=
  setContext_maxContextTokens m sid _

/-- Helper: `add_message` does not change the manager's budget parameter. -/
theorem addMessage_maxContextTokens (m : ContextManager) (sid content : String)
    (role : ModelRole) :
    (addMessage m sid content role).1.maxContextTokens = m.maxContextTokens := by
  by_cases h : (findContext m sid).isSome = true
  · simp only [addMessage, h, if_true]
    cases hf : findContext m sid with
    | none => rfl
    | some ctx =>
      exact setContext_maxContextTokens m sid _
  · have h' : (findContext m sid).isSome = false := by simpa using h
    simp only [addMessage, h', Bool.false_eq_true, if_false]
    cases hf : findContext (createSessionWith m sid none) sid with
    | none =>
      exact createSessionWith_maxContextTokens m sid none
    | some ctx =>
      calc (setContext (createSessionWith m sid none) sid _).maxContextTokens
          = (createSessionWith m sid none).maxContextTokens :=
            setContext_maxContextTokens _ sid _
        _ = m.maxContextTokens := createSessionWith_maxContextTokens m sid none

/-- Helper: `create_session` preserves the manager invariant, provided the
default prompt fits the per-message bound and the budget holds four bounded
messages. -/
theorem createSession_good (E : Nat) (m : ContextManager) (sid : String)
    (hE : 52 ≤ E) (h4E : 4 * E ≤ m.maxContextTokens)
    (hprompt : estimateTokens defaultSystemPrompt ≤ E)
    (hm : GoodManager E m) :
    GoodManager E (createSessionWith m sid none) := by
  intro sid' ctx' hfind
  by_cases hsid : sid' = sid
  · subst hsid
    have h2 : findContext (createSessionWith m sid' none) sid' =
        some { sessionId := sid'
               messages := [{ role := ModelRole.system, content := defaultSystemPrompt }]
               totalTokens := estimateTokens defaultSystemPrompt
               maxTokens := m.maxContextTokens
               systemPrompt := defaultSystemPrompt } :=
      findContext_setContext_self m sid' _
    rw [h2] at hfind
    injection hfind with h3
    rw [← h3]
    refine ⟨MessagesBounded.singleton hprompt, ?_, ?_, h4E⟩
    · rw [sumTokens_singleton]
    · show estimateTokens defaultSystemPrompt ≤ m.maxContextTokens
      omega
  · have h2 : findContext (createSessionWith m sid none) sid' = findContext m sid' :=
      findContext_setContext_ne m sid sid' _ hsid
    rw [h2] at hfind
    exact hm sid' ctx' hfind

/-- Helper: the session-update step of `add_message` (optional compression,
then append) preserves the manager invariant. -/
theorem addMessage_core_good (E : Nat) (m1 : ContextManager) (sid content : String)
    (role : ModelRole) (ctx : ConversationContext)
    (hE : 52 ≤ E) (hcontent : estimateTokens content ≤ E)
    (hm1 : GoodManager E m1)
    (hf : findContext m1 sid = some ctx) :
    GoodManager E (setContext m1 sid
      (let ctx1 :=
        if ctx.totalTokens + estimateTokens content > ctx.maxTokens then
          compressContext ctx (estimateTokens content)
        else ctx
       { ctx1 with
           messages := ctx1.messages ++ [{ role := role, content := content }]
           totalTokens := ctx1.totalTokens + estimateTokens content })) := by
  intro sid' ctx' hfind'
  by_cases hsid : sid' = sid
  · subst hsid
    rw [findContext_setContext_self] at hfind'
    injection hfind' with h3
    rw [← h3]
    obtain ⟨hbnd, hsum, hle, h4⟩ := hm1 sid' ctx hf
    by_cases hover : ctx.totalTokens + estimateTokens content > ctx.maxTokens
    · rw [if_pos hover]
      obtain ⟨cb, cs, cle, cmax⟩ :=
        compress_good E ctx (estimateTokens content) hE hbnd h4 hcontent
      refine ⟨MessagesBounded.append cb (MessagesBounded.singleton hcontent), ?_, ?_, ?_⟩
      · show (compressContext ctx (estimateTokens content)).totalTokens +
          estimateTokens content = _
        rw [sumTokens_append, sumTokens_singleton, cs]
      · show (compressContext ctx (estimateTokens content)).totalTokens +
          estimateTokens content ≤
            (compressContext ctx (estimateTokens content)).maxTokens
        omega
      · show 4 * E ≤ (compressContext ctx (estimateTokens content)).maxTokens
        omega
    · rw [if_neg hover]
      refine ⟨MessagesBounded.append hbnd (MessagesBounded.singleton hcontent), ?_, ?_, h4⟩
      · show ctx.totalTokens + estimateTokens content = _
        rw [sumTokens_append, sumTokens_singleton, hsum]
      · show ctx.totalTokens + estimateTokens content ≤ ctx.maxTokens
        omega
  · rw [findContext_setContext_ne _ _ _ _ hsid] at hfind'
    exact hm1 sid' ctx' hfind'

/-- Helper: one `add_message` call preserves the manager invariant. -/
theorem addMessage_good (E : Nat) (m : ContextManager) (sid content : String)
    (role : ModelRole)
    (hE : 52 ≤ E) (h4E : 4 * E ≤ m.maxContextTokens)
    (hprompt : estimateTokens defaultSystemPrompt ≤ E)
    (hcontent : estimateTokens content ≤ E)
    (hm : GoodManager E m) :
    GoodManager E (addMessage m sid content role).1 := by
  by_cases h : (findContext m sid).isSome = true
  · obtain ⟨ctx, hf⟩ := Option.isSome_iff_exists.mp h
    simp only [addMessage, h, if_true]
    rw [hf]
    exact addMessage_core_good E m sid content role ctx hE hcontent hm hf
  · have h' : (findContext m sid).isSome = false := by simpa using h
    have hm1 := createSession_good E m sid hE h4E hprompt hm
    have hf : findContext (createSessionWith m sid none) sid =
        some { sessionId := sid
               messages := [{ role := ModelRole.system, content := defaultSystemPrompt }]
               totalTokens := estimateTokens defaultSystemPrompt
               maxTokens := m.maxContextTokens
               systemPrompt := defaultSystemPrompt } :=
      findContext_setContext_self m sid _
    simp only [addMessage, h', Bool.false_eq_true, if_false]
    rw [hf]
    exact addMessage_core_good E (createSessionWith m sid none) sid content role _
      hE hcontent hm1 hf

/-- C4 counterexample: the budget is not respected for arbitrary message
sizes.  With `max_context_tokens = 100`, a single `add_message` of a
600-character message leaves the session at 390 estimated tokens against the
budget of 100 (the aggressive compression path keeps the protected messages
and appends regardless). -/
theorem context_budget_exceeded :
    budgetOk (addMessages mgr100 [("s", big600, ModelRole.user)]) "s" = false ∧
    ((findContext (addMessages mgr100 [("s", big600, ModelRole.user)]) "s").map
      (fun c => (c.totalTokens, c.maxTokens))) = some (390, 100) := by
  set_option maxRecDepth 40000 in decide

/-- C4 (amended): after any finite sequence of `add_message` calls — at every
prefix, i.e. after each call — every session's estimated token total is
within its budget, provided every message content's estimate (and the default
system prompt's) is at most `E` where `52 ≤ E` and four `E`-sized messages
fit the configured budget (`4 * E ≤ max_context_tokens`); without such a
bound the invariant fails (see the counterexample). -/
theorem context_budget_bounded_messages (E : Nat) (m0 : ContextManager)
    (calls : List (String × String × ModelRole))
    (hE : 52 ≤ E)
    (h4E : 4 * E ≤ m0.maxContextTokens)
    (hprompt : estimateTokens defaultSystemPrompt ≤ E)
    (hcalls : ∀ c ∈ calls, estimateTokens c.2.1 ≤ E)
    (hm0 : GoodManager E m0) :
    ∀ pre suf : List (String × String × ModelRole), calls = pre ++ suf →
      ∀ sid, budgetOk (addMessages m0 pre) sid = true := by
  have key : ∀ (cs : List (String × String × ModelRole)) (m : ContextManager),
      (∀ c ∈ cs, estimateTokens c.2.1 ≤ E) → 4 * E ≤ m.maxContextTokens →
      GoodManager E m → GoodManager E (addMessages m cs) := by
    intro cs
    induction cs with
    | nil =>
      intro m _ _ hm
      exact hm
    | cons c rest ih =>
      intro m hc h4 hm
      have hstep := addMessage_good E m c.1 c.2.1 c.2.2 hE h4 hprompt
        (hc c (List.mem_cons_self _ _)) hm
      have hmax := addMessage_maxContextTokens m c.1 c.2.1 c.2.2
      exact ih (addMessage m c.1 c.2.1 c.2.2).1
        (fun c' h' => hc c' (List.mem_cons_of_mem _ h'))
        (by rw [hmax]; exact h4) hstep
  intro pre suf hps sid
  have hg := key pre m0
    (fun c hc => hcalls c (by rw [hps]; exact List.mem_append_left suf hc))
    h4E hm0
  unfold budgetOk
  cases hf : findContext (addMessages m0 pre) sid with
  | none => rfl
  | some c =>
    obtain ⟨_, _, hle, _⟩ := hg sid c hf
    simp [hle]

/-- C4 witness: the amended theorem run at `E = 2000` on the default manager
with two small messages in one session. -/
theorem context_budget_bounded_messages_witness :
    budgetOk (addMessages { }
      [("s", "hello", ModelRole.user), ("s", "how are you", ModelRole.assistant)]) "s"
      = true :=
  context_budget_bounded_messages 2000 { }
    [("s", "hello", ModelRole.user), ("s", "how are you", ModelRole.assistant)]
    (by decide) (by decide)
    (by set_option maxRecDepth 40000 in decide)
    (by intro c hc; fin_cases hc <;> decide)
    (fun sid ctx h => nomatch h)
    [("s", "hello", ModelRole.user), ("s", "how are you", ModelRole.assistant)] []
    (by decide) "s"


/-- Helper: a nonempty `dropWhile` result starts with a character failing the
predicate. -/
theorem dropWhile_head?_false (p : Char → Bool) (l : List Char) (c : Char)
    (rest : List Char) (h : l.dropWhile p = c :: rest) : p c = false := by
  induction l with
  | nil => simp at h
  | cons a t ih =>
    rw [List.dropWhile_cons] at h
    by_cases hp : p a = true
    · rw [if_pos hp] at h
      exact ih h
    · rw [if_neg hp] at h
      injection h with h1 h2
      rw [← h1]
      simpa using hp

/-- Helper: a list whose first and last characters are not whitespace strips
to itself. -/
theorem pyStripList_eq_self (l : List Char)
    (h1 : ∀ c, l.head? = some c → isPySpace c = false)
    (h2 : ∀ c, l.getLast? = some c → isPySpace c = false) :
    pyStripList l = l := by
  cases hl : l with
  | nil => rfl
  | cons a t =>
    unfold pyStripList
    have ha : isPySpace a = false := h1 a (by rw [hl]; rfl)
    rw [List.dropWhile_cons, if_neg (by simp [ha])]
    cases hrev : (a :: t).reverse with
    | nil => simp at hrev
    | cons d r =>
      have hd : (a :: t).getLast? = some d := by
        rw [← List.head?_reverse, hrev]
        rfl
      have hdw : isPySpace d = false := h2 d (by rw [hl]; exact hd)
      rw [List.dropWhile_cons, if_neg (by simp [hdw]), ← hrev]
      exact List.reverse_reverse _

/-- Helper: the strip result is no longer than the front-stripped list. -/
theorem pyStripList_length_le_dropWhile (l : List Char) :
    (pyStripList l).length ≤ (l.dropWhile isPySpace).length := by
  unfold pyStripList
  rw [List.length_reverse]
  calc ((l.dropWhile isPySpace).reverse.dropWhile isPySpace).length
      ≤ (l.dropWhile isPySpace).reverse.length :=
        (List.dropWhile_sublist _).length_le
    _ = (l.dropWhile isPySpace).length := List.length_reverse _

/-- Helper: a nonempty list fixed by strip starts with a non-whitespace
character. -/
theorem head_not_ws_of_strip_eq (l : List Char) (h : pyStripList l = l) :
    ∀ c, l.head? = some c → isPySpace c = false := by
  intro c hc
  by_contra hws
  have hws' : isPySpace c = true := by simpa using hws
  cases hl : l with
  | nil => rw [hl] at hc; simp at hc
  | cons a t =>
    rw [hl] at hc
    have hac : a = c := by injection hc
    have hdrop : List.dropWhile isPySpace (a :: t) = List.dropWhile isPySpace t := by
      rw [List.dropWhile_cons, if_pos]
      rw [hac]
      simp [hws']
    have h1 : (pyStripList (a :: t)).length ≤ (List.dropWhile isPySpace (a :: t)).length :=
      pyStripList_length_le_dropWhile _
    rw [hdrop] at h1
    have h2 : (List.dropWhile isPySpace t).length ≤ t.length :=
      (List.dropWhile_sublist _).length_le
    rw [hl] at h
    rw [h] at h1
    simp at h1
    omega

/-- Helper: a nonempty list fixed by strip ends with a non-whitespace
character. -/
theorem getLast_not_ws_of_strip_eq (l : List Char) (h : pyStripList l = l) :
    ∀ c, l.getLast? = some c → isPySpace c = false := by
  intro c hc
  cases hl0 : l with
  | nil => rw [hl0] at hc; simp at hc
  | cons a t =>
    have hnil : l ≠ [] := by rw [hl0]; simp
    have hrevne : l.reverse ≠ [] := by simpa using hnil
    cases hrev : l.reverse with
    | nil => exact absurd hrev hrevne
    | cons d r =>
      have hd : l.getLast? = some d := by rw [← List.head?_reverse, hrev]; rfl
      rw [hd] at hc
      have hdc : d = c := by injection hc
      -- from strip fixed point, the reversed second pass is the identity
      have hB : ((l.dropWhile isPySpace).reverse.dropWhile isPySpace) = l.reverse := by
        have := congrArg List.reverse h
        unfold pyStripList at this
        rwa [List.reverse_reverse] at this
      rw [hrev] at hB
      rw [← hdc]
      exact dropWhile_head?_false isPySpace _ d r hB

/-- Helper: a string is nonempty iff its character list is. -/
theorem string_ne_empty_iff (l : List Char) : (⟨l⟩ : String) ≠ "" ↔ l ≠ [] := by
  constructor
  · intro h hl
    subst hl
    exact h rfl
  · intro h hc
    apply h
    have : (⟨l⟩ : String).data = ("" : String).data := by rw [hc]
    simpa using this

/-- Helper: the separator-join of a nonempty list of nonempty strings is
nonempty. -/
theorem pyJoin_ne_empty (sep : String) (l : List String)
    (h : ∀ s ∈ l, s ≠ "") (hl : l ≠ []) : pyJoin sep l ≠ "" := by
  cases l with
  | nil => exact absurd rfl hl
  | cons a t =>
    cases t with
    | nil => exact h a (List.mem_cons_self _ _)
    | cons b r =>
      have ha := h a (List.mem_cons_self _ _)
      intro hcontra
      apply ha
      have h1 : (pyJoin sep (a :: b :: r)).length = 0 := by rw [hcontra]; rfl
      have h2 : pyJoin sep (a :: b :: r) = a ++ sep ++ pyJoin sep (b :: r) := rfl
      rw [h2, String.length_append, String.length_append] at h1
      have h3 : a.length = 0 := by omega
      have h4 : a.data = [] := List.length_eq_zero.mp h3
      exact String.ext (h4.trans rfl)

/-- Helper: appending one element to a nonempty join. -/
theorem pyJoin_append_single (sep : String) (l : List String) (x : String)
    (hl : l ≠ []) : pyJoin sep (l ++ [x]) = pyJoin sep l ++ sep ++ x := by
  induction l with
  | nil => exact absurd rfl hl
  | cons a t ih =>
    cases t with
    | nil => rfl
    | cons b r =>
      have : pyJoin sep ((a :: b :: r) ++ [x]) =
          a ++ sep ++ pyJoin sep ((b :: r) ++ [x]) := rfl
      rw [this, ih (by simp)]
      have : pyJoin sep (a :: b :: r) = a ++ sep ++ pyJoin sep (b :: r) := rfl
      rw [this]
      simp [String.ext_iff]


/-- Helper: a string equals the mk of its data. -/
theorem string_eta (s : String) : s = ⟨s.data⟩ := rfl

/-- Helper: the data of a nonempty join starts with the first element's first
character. -/
theorem pyJoin_data_head? (sep : String) (a : String) (t : List String)
    (ha : a.data ≠ []) :
    (pyJoin sep (a :: t)).data.head? = a.data.head? := by
  cases t with
  | nil => rfl
  | cons b r =>
    have hj : pyJoin sep (a :: b :: r) = a ++ sep ++ pyJoin sep (b :: r) := rfl
    rw [hj, String.data_append, String.data_append]
    cases had : a.data with
    | nil => exact absurd had ha
    | cons c cs => simp

/-- Helper: the data of a join of nonempty strings ends with the last
element's last character. -/
theorem pyJoin_data_getLast? (sep : String) (l : List String) (x : String)
    (h : ∀ s ∈ l, s ≠ "") (hx : l.getLast? = some x) :
    (pyJoin sep l).data.getLast? = x.data.getLast? := by
  induction l with
  | nil => simp at hx
  | cons a t ih =>
    cases t with
    | nil =>
      simp at hx
      subst hx
      rfl
    | cons b r =>
      have hx' : (b :: r).getLast? = some x := by simpa using hx
      have hj : pyJoin sep (a :: b :: r) = a ++ sep ++ pyJoin sep (b :: r) := rfl
      rw [hj, String.data_append]
      have hne : (pyJoin sep (b :: r)).data ≠ [] := by
        have h1 : pyJoin sep (b :: r) ≠ "" := by
          apply pyJoin_ne_empty
          · intro s hs
            exact h s (List.mem_cons_of_mem _ hs)
          · simp
        exact (string_ne_empty_iff _).mp h1
      rw [List.getLast?_append_of_ne_nil _ hne]
      exact ih (fun s hs => h s (List.mem_cons_of_mem _ hs)) hx'

/-- Helper: strip fixed points at the string level transfer to the data. -/
theorem stripList_eq_of_pyStrip_eq (s : String) (h : pyStrip s = s) :
    pyStripList s.data = s.data := by
  have := congrArg String.data h
  simpa [pyStrip] using this

/-- Helper: the space-join of well-formed sentences is fixed by `strip()`. -/
theorem pyStrip_join (l : List String) (hwf : ∀ s ∈ l, WFsent s) :
    pyStrip (pyJoin " " l) = pyJoin " " l := by
  cases hl : l with
  | nil => rfl
  | cons a t =>
    have hwa := hwf a (by rw [hl]; exact List.mem_cons_self _ _)
    have hadata : a.data ≠ [] := by
      intro hcontra
      exact hwa.1 (String.ext (hcontra.trans rfl))
    -- it suffices that the data is a strip fixed point
    rw [string_eta (pyJoin " " (a :: t)), pyStrip]
    have hfix : pyStripList (pyJoin " " (a :: t)).data = (pyJoin " " (a :: t)).data := by
      apply pyStripList_eq_self
      · intro c hc
        rw [pyJoin_data_head? " " a t hadata] at hc
        exact head_not_ws_of_strip_eq a.data (stripList_eq_of_pyStrip_eq a hwa.2) c hc
      · intro c hc
        obtain ⟨x, hx⟩ : ∃ x, (a :: t).getLast? = some x := by
          cases hgl : (a :: t).getLast? with
          | none => simp at hgl
          | some x => exact ⟨x, rfl⟩
        have hxmem : x ∈ (a :: t) := List.mem_of_getLast?_eq_some hx
        have hwx := hwf x (by rw [hl]; exact hxmem)
        rw [pyJoin_data_getLast? " " (a :: t) x
          (fun s hs => (hwf s (by rw [hl]; exact hs)).1) hx] at hc
        exact getLast_not_ws_of_strip_eq x.data (stripList_eq_of_pyStrip_eq x hwx.2) c hc
    rw [hfix]


/-- Helper: sentence terminators are not whitespace. -/
theorem sentEnd_not_ws (c : Char) (h : isSentEnd c = true) : isPySpace c = false := by
  simp [isSentEnd] at h
  rcases h with (h | h) | h <;> subst h <;> decide

/-- Helper: a nonempty suffix has the same last element as the whole list. -/
theorem getLast?_of_suffix (a b : List Char) (x : Char) (h : a <:+ b)
    (hx : a.getLast? = some x) : b.getLast? = some x := by
  obtain ⟨pre, rfl⟩ := h
  rw [List.getLast?_append_of_ne_nil]
  · exact hx
  · intro hnil
    rw [hnil] at hx
    simp at hx

/-- Helper: the strip output starts with a non-whitespace character. -/
theorem strip_head?_not_ws (l : List Char) :
    ∀ c, (pyStripList l).head? = some c → isPySpace c = false := by
  intro c hc
  unfold pyStripList at hc
  rw [List.head?_reverse] at hc
  -- hc : the second-pass dropWhile ends (as a list) with c
  have hsuf : ((l.dropWhile isPySpace).reverse.dropWhile isPySpace) <:+
      (l.dropWhile isPySpace).reverse := List.dropWhile_suffix _
  have hc2 : (l.dropWhile isPySpace).reverse.getLast? = some c :=
    getLast?_of_suffix _ _ c hsuf hc
  rw [List.getLast?_reverse] at hc2
  cases hA : l.dropWhile isPySpace with
  | nil => rw [hA] at hc2; simp at hc2
  | cons a as =>
    rw [hA] at hc2
    have hac : a = c := by injection hc2
    have := dropWhile_head?_false isPySpace l a as hA
    rwa [hac] at this

/-- Helper: the strip output ends with a non-whitespace character. -/
theorem strip_getLast?_not_ws (l : List Char) :
    ∀ c, (pyStripList l).getLast? = some c → isPySpace c = false := by
  intro c hc
  unfold pyStripList at hc
  rw [List.getLast?_reverse] at hc
  cases hB : (l.dropWhile isPySpace).reverse.dropWhile isPySpace with
  | nil => rw [hB] at hc; simp at hc
  | cons b bs =>
    rw [hB] at hc
    have hbc : b = c := by injection hc
    have := dropWhile_head?_false isPySpace _ b bs hB
    rwa [hbc] at this

/-- Helper: `strip()` is idempotent. -/
theorem pyStripList_idem (l : List Char) :
    pyStripList (pyStripList l) = pyStripList l :=
  pyStripList_eq_self _ (strip_head?_not_ws l) (strip_getLast?_not_ws l)

/-- Helper: the cleaner's output is fixed by `strip()` (its last stage). -/
theorem cleanText_strip_fix (text : String) :
    pyStrip (cleanText text) = cleanText text := by
  unfold cleanText pyStrip
  exact congrArg String.mk (pyStripList_idem _)


/-- Helper: the final accumulator piece of the splitter is well formed when
its boundary characters are non-whitespace. -/
theorem split_final_piece_wf (acc : List Char) (hacc : acc ≠ [])
    (H3 : ∀ c, acc.head? = some c → isPySpace c = false)
    (H4 : ∀ c, acc.getLast? = some c → isPySpace c = false) :
    acc.reverse ≠ [] ∧ pyStripList acc.reverse = acc.reverse := by
  constructor
  · simpa using hacc
  · apply pyStripList_eq_self
    · intro c hc
      rw [List.head?_reverse] at hc
      exact H4 c hc
    · intro c hc
      rw [List.getLast?_reverse] at hc
      exact H3 c hc

/-- Helper: one splitter step on an empty accumulator pushes the character. -/
theorem splitSentencesList_cons_nil (c : Char) (r : List Char) :
    splitSentencesList [] (c :: r) = splitSentencesList [c] r := by
  rw [splitSentencesList.eq_def]
  simp

/-- Helper: one splitter step on a nonempty accumulator. -/
theorem splitSentencesList_cons_cons (p : Char) (acc2 : List Char) (c : Char)
    (r : List Char) :
    splitSentencesList (p :: acc2) (c :: r) =
      if isPySpace c && isSentEnd p then
        (p :: acc2).reverse :: splitSentencesList [] (r.dropWhile isPySpace)
      else splitSentencesList (c :: p :: acc2) r := by
  rw [splitSentencesList.eq_def]

/-- Helper: every piece the sentence splitter produces is nonempty and fixed
by strip, whenever the pending input ends in a non-whitespace character, a
fresh accumulator implies a non-whitespace next character, and the
accumulator's boundary characters are non-whitespace. -/
theorem splitSentencesList_wf (n : Nat) :
    ∀ (acc rest : List Char), rest.length ≤ n →
    (acc = [] → ∃ c r, rest = c :: r ∧ isPySpace c = false) →
    (∀ c, rest.getLast? = some c → isPySpace c = false) →
    (rest = [] → ∀ c, acc.head? = some c → isPySpace c = false) →
    (∀ c, acc.getLast? = some c → isPySpace c = false) →
    ∀ piece ∈ splitSentencesList acc rest, piece ≠ [] ∧ pyStripList piece = piece := by
  induction n with
  | zero =>
    intro acc rest hlen H1 H2 H3 H4 piece hpiece
    have hrest : rest = [] := List.length_eq_zero.mp (Nat.le_zero.mp hlen)
    subst hrest
    simp only [splitSentencesList, List.mem_singleton] at hpiece
    subst hpiece
    have hacc : acc ≠ [] := by
      intro h0
      obtain ⟨c, r, hcr, -⟩ := H1 h0
      exact List.cons_ne_nil c r hcr.symm
    exact split_final_piece_wf acc hacc (H3 rfl) H4
  | succ n ih =>
    intro acc rest hlen H1 H2 H3 H4 piece hpiece
    cases rest with
    | nil =>
      simp only [splitSentencesList, List.mem_singleton] at hpiece
      subst hpiece
      have hacc : acc ≠ [] := by
        intro h0
        obtain ⟨c, r, hcr, -⟩ := H1 h0
        exact List.cons_ne_nil c r hcr.symm
      exact split_final_piece_wf acc hacc (H3 rfl) H4
    | cons c r =>
      cases hacc : acc with
      | nil =>
        rw [hacc, splitSentencesList_cons_nil] at hpiece
        obtain ⟨c2, r2, hcr, hwc2⟩ := H1 hacc
        have hc2 : c2 = c := by
          injection hcr with h1 _
          exact h1.symm
        rw [hc2] at hwc2
        refine ih [c] r ?_ ?_ ?_ ?_ ?_ piece hpiece
        · have h2 : (c :: r).length ≤ n + 1 := hlen
          simp at h2
          omega
        · intro h0
          exact absurd h0 (List.cons_ne_nil c [])
        · intro d hd
          apply H2 d
          cases r with
          | nil => simp at hd
          | cons b r2 =>
            rw [List.getLast?_cons_cons]
            exact hd
        · intro h0 d hd
          rw [List.head?_cons] at hd
          have : c = d := by injection hd
          rwa [← this]
        · intro d hd
          have : c = d := by
            simp at hd
            exact hd
          rwa [← this]
      | cons p acc2 =>
        rw [hacc, splitSentencesList_cons_cons] at hpiece
        by_cases hb : (isPySpace c && isSentEnd p) = true
        case pos =>
          rw [if_pos hb] at hpiece
          rw [Bool.and_eq_true] at hb
          obtain ⟨hwc, hp⟩ := hb
          rw [List.mem_cons] at hpiece
          cases hpiece with
          | inl hpiece =>
            subst hpiece
            constructor
            · simp
            · apply pyStripList_eq_self
              · intro d hd
                rw [List.head?_reverse] at hd
                apply H4 d
                rw [hacc]
                exact hd
              · intro d hd
                rw [List.getLast?_reverse, List.head?_cons] at hd
                have hpd : p = d := by injection hd
                rw [← hpd]
                exact sentEnd_not_ws p hp
          | inr hpiece =>
            have hr : r ≠ [] := by
              intro h0
              subst h0
              have hcl : isPySpace c = false := H2 c (by simp)
              rw [hcl] at hwc
              exact Bool.false_ne_true hwc
            have hlr : ∀ d, r.getLast? = some d → isPySpace d = false := by
              intro d hd
              apply H2 d
              cases r with
              | nil => exact absurd rfl hr
              | cons b r2 =>
                rw [List.getLast?_cons_cons]
                exact hd
            have hdropne : r.dropWhile isPySpace ≠ [] := by
              intro h0
              have hall := List.dropWhile_eq_nil_iff.mp h0
              cases hgl : r.getLast? with
              | none => exact hr (List.getLast?_eq_none_iff.mp hgl)
              | some d =>
                have hdws := hall d (List.mem_of_getLast?_eq_some hgl)
                have hdf := hlr d hgl
                rw [hdf] at hdws
                exact Bool.false_ne_true hdws
            refine ih [] (r.dropWhile isPySpace) ?_ ?_ ?_ ?_ ?_ piece hpiece
            · have h1 : (r.dropWhile isPySpace).length ≤ r.length :=
                (List.dropWhile_sublist _).length_le
              have h2 : (c :: r).length ≤ n + 1 := hlen
              simp at h2
              omega
            · intro _
              cases hdw : r.dropWhile isPySpace with
              | nil => exact absurd hdw hdropne
              | cons d ds =>
                exact ⟨d, ds, rfl, dropWhile_head?_false isPySpace r d ds hdw⟩
            · intro d hd
              exact hlr d (getLast?_of_suffix _ _ d (List.dropWhile_suffix _) hd)
            · intro h0
              exact absurd h0 hdropne
            · intro d hd
              simp at hd
        case neg =>
          rw [if_neg hb] at hpiece
          refine ih (c :: p :: acc2) r ?_ ?_ ?_ ?_ ?_ piece hpiece
          · have h2 : (c :: r).length ≤ n + 1 := hlen
            simp at h2
            omega
          · intro h0
            exact absurd h0 (List.cons_ne_nil c (p :: acc2))
          · intro d hd
            apply H2 d
            cases r with
            | nil => simp at hd
            | cons b r2 =>
              rw [List.getLast?_cons_cons]
              exact hd
          · intro h0 d hd
            subst h0
            have hc : isPySpace c = false := H2 c (by simp)
            rw [List.head?_cons] at hd
            have : c = d := by injection hd
            rwa [← this]
          · intro d hd
            rw [List.getLast?_cons_cons] at hd
            apply H4 d
            rw [hacc]
            exact hd


/-- Helper: every sentence split from a nonempty strip-fixed string is well
formed. -/
theorem splitSentences_wf (t : String) (ht : t ≠ "") (hfix : pyStrip t = t) :
    ∀ s ∈ splitSentences t, WFsent s := by
  intro s hs
  unfold splitSentences at hs
  rw [List.mem_map] at hs
  obtain ⟨piece, hpiece, rfl⟩ := hs
  have hdata : t.data ≠ [] := by
    intro h0
    exact ht (String.ext (h0.trans rfl))
  have H1 : ([] : List Char) = [] → ∃ c r, t.data = c :: r ∧ isPySpace c = false := by
    intro _
    cases hd : t.data with
    | nil => exact absurd hd hdata
    | cons c r =>
      refine ⟨c, r, rfl, ?_⟩
      apply head_not_ws_of_strip_eq t.data (stripList_eq_of_pyStrip_eq t hfix)
      rw [hd]
      rfl
  have H2 : ∀ c, t.data.getLast? = some c → isPySpace c = false :=
    getLast_not_ws_of_strip_eq t.data (stripList_eq_of_pyStrip_eq t hfix)
  have H3 : t.data = [] → ∀ c, ([] : List Char).head? = some c → isPySpace c = false := by
    intro h0
    exact absurd h0 hdata
  have H4 : ∀ c, ([] : List Char).getLast? = some c → isPySpace c = false := by
    intro c hc
    simp at hc
  have hw := splitSentencesList_wf t.data.length [] t.data le_rfl H1 H2 H3 H4 piece hpiece
  exact ⟨(string_ne_empty_iff piece).mpr hw.1, congrArg String.mk hw.2⟩

/-- Helper: the sentences split from a page's cleaned text are well formed
whenever the cleaned text is nonempty. -/
theorem splitSentences_cleanText_wf (text : String) (h : cleanText text ≠ "") :
    ∀ s ∈ splitSentences (cleanText text), WFsent s :=
  splitSentences_wf _ h (cleanText_strip_fix text)

/-- Helper: a common sentence makes `sharesSentence` true. -/
theorem shares_of_mem (c1 c2 : Chunk) (s : String) (h1 : s ∈ c1.sentences)
    (h2 : s ∈ c2.sentences) : sharesSentence c1 c2 = true := by
  unfold sharesSentence
  rw [List.any_eq_true]
  refine ⟨s, h1, ?_⟩
  simpa using h2

/-- Helper: `sharesSentence` true yields a common sentence. -/
theorem mem_of_shares (c1 c2 : Chunk) (h : sharesSentence c1 c2 = true) :
    ∃ s, s ∈ c1.sentences ∧ s ∈ c2.sentences := by
  unfold sharesSentence at h
  rw [List.any_eq_true] at h
  obtain ⟨s, hs1, hs2⟩ := h
  exact ⟨s, hs1, by simpa using hs2⟩

/-- Helper: elements of a slice are elements of the base list at an absolute
position inside the slice's range. -/
theorem mem_slice (ss : List String) (a b : Nat) (s : String)
    (h : s ∈ slice ss a b) : ∃ i, i < b ∧ ss[a + i]? = some s := by
  unfold slice at h
  obtain ⟨i, hi, he⟩ := List.mem_iff_getElem.mp h
  refine ⟨i, ?_, ?_⟩
  · have := hi
    simp [List.length_take, List.length_drop] at this
    omega
  · have hib : i < b := by
      have := hi
      simp [List.length_take, List.length_drop] at this
      omega
    have h1 : ((ss.drop a).take b)[i]? = some s := by
      rw [List.getElem?_eq_getElem hi]
      exact congrArg some he
    rw [List.getElem?_take, if_pos hib, List.getElem?_drop] at h1
    exact h1

/-- Helper: extending a slice by the next element of the base list. -/
theorem slice_snoc (ss : List String) (j b : Nat) (s : String)
    (rest : List String) (hdrop : ss.drop (j + b) = s :: rest) :
    slice ss j b ++ [s] = slice ss j (b + 1) := by
  unfold slice
  have hdd : (ss.drop j).drop b = s :: rest := by
    rw [List.drop_drop]
    exact hdrop
  have hb : (ss.drop j)[b]? = some s := by
    rw [← List.head?_drop, hdd]
    rfl
  rw [List.take_succ, hb]
  rfl

/-- Helper: dropping a prefix of a slice yields a later slice. -/
theorem slice_drop (ss : List String) (j b m : Nat) :
    (slice ss j b).drop m = slice ss (j + m) (b - m) := by
  unfold slice
  rw [List.drop_take, List.drop_drop]

/-- Helper: the length of a slice inside the base list. -/
theorem slice_length (ss : List String) (j b : Nat) (h : j + b ≤ ss.length) :
    (slice ss j b).length = b := by
  unfold slice
  simp [List.length_take, List.length_drop]
  omega


/-- Helper: a loop step that does not trigger the size check only appends the
sentence to the running buffer. -/
theorem chunkStep_no_emit (cs o : Nat) (th : String → String) (page : Nat)
    (st : ChunkState) (s : String)
    (h : ¬((st.cur ++ " " ++ s).length > cs ∧ st.cur ≠ "")) :
    chunkStep cs o th page st s =
      { chunks := st.chunks,
        cur := if st.cur ≠ "" then st.cur ++ " " ++ s else s,
        curS := st.curS ++ [s] } := by
  simp only [chunkStep]
  rw [if_neg h]

/-- Helper: a loop step that triggers the size check with positive overlap and
a nonempty buffer emits the buffer and reseeds with the trailing overlap
sentences. -/
theorem chunkStep_emit_ov (cs o : Nat) (th : String → String) (page : Nat)
    (st : ChunkState) (s : String)
    (h : (st.cur ++ " " ++ s).length > cs ∧ st.cur ≠ "")
    (h2 : o > 0 ∧ st.curS ≠ []) :
    chunkStep cs o th page st s =
      { chunks := emitChunk th page st,
        cur := if pyJoin " " (st.curS.drop (st.curS.length - min 2 st.curS.length)) ≠ ""
               then pyJoin " " (st.curS.drop (st.curS.length - min 2 st.curS.length)) ++ " " ++ s
               else s,
        curS := st.curS.drop (st.curS.length - min 2 st.curS.length) ++ [s] } := by
  simp only [chunkStep]
  rw [if_pos h, if_pos h2]

/-- Helper: a loop step that triggers the size check without overlap reseeding
emits the buffer and restarts from the current sentence alone. -/
theorem chunkStep_emit_reset (cs o : Nat) (th : String → String) (page : Nat)
    (st : ChunkState) (s : String)
    (h : (st.cur ++ " " ++ s).length > cs ∧ st.cur ≠ "")
    (h2 : ¬(o > 0 ∧ st.curS ≠ [])) :
    chunkStep cs o th page st s =
      { chunks := emitChunk th page st, cur := s, curS := [s] } := by
  simp only [chunkStep]
  rw [if_pos h, if_neg h2]
  simp

/-- Helper: when the strip of the running chunk is nonempty `emitChunk`
appends one chunk carrying the sentence buffer. -/
theorem emitChunk_append (th : String → String) (page : Nat) (st : ChunkState)
    (h : pyStrip st.cur ≠ "") :
    emitChunk th page st = st.chunks ++
      [{ text := pyStrip st.cur, textHash := th (pyStrip st.cur), page := page,
         sentences := st.curS, sentenceCount := st.curS.length,
         charCount := (pyStrip st.cur).length,
         wordCount := pyWordCount (pyStrip st.cur) }] := by
  simp only [emitChunk]
  rw [if_pos h]

/-- Helper: the sharing invariant of the loop with positive overlap: the
running chunk is the join of the buffer, the buffer holds well-formed
sentences, the emitted chunks pairwise-consecutively share a sentence, and the
buffer shares a sentence with the last emitted chunk. -/
theorem chunkLoop_share (cs o : Nat) (th : String → String) (page : Nat)
    (ho : 0 < o) :
    ∀ (ss : List String) (st : ChunkState),
    (∀ s ∈ ss, WFsent s) →
    st.cur = pyJoin " " st.curS →
    (∀ s ∈ st.curS, WFsent s) →
    List.Chain' (fun a b => sharesSentence a b = true) st.chunks →
    (st.chunks = [] ∨ ∃ cl, st.chunks.getLast? = some cl ∧
       ∃ s, s ∈ st.curS ∧ s ∈ cl.sentences) →
    ((chunkLoop cs o th page st ss).cur =
        pyJoin " " (chunkLoop cs o th page st ss).curS ∧
     (∀ s ∈ (chunkLoop cs o th page st ss).curS, WFsent s) ∧
     List.Chain' (fun a b => sharesSentence a b = true)
        (chunkLoop cs o th page st ss).chunks ∧
     ((chunkLoop cs o th page st ss).chunks = [] ∨
       ∃ cl, (chunkLoop cs o th page st ss).chunks.getLast? = some cl ∧
         ∃ s, s ∈ (chunkLoop cs o th page st ss).curS ∧ s ∈ cl.sentences)) := by
  intro ss
  induction ss with
  | nil =>
    intro st hwf hcur hwfS hchain hlink
    exact ⟨hcur, hwfS, hchain, hlink⟩
  | cons s rest ih =>
    intro st hwf hcur hwfS hchain hlink
    have hs : WFsent s := hwf s (List.mem_cons_self _ _)
    have hwf' : ∀ x ∈ rest, WFsent x := fun x hx => hwf x (List.mem_cons_of_mem _ hx)
    have hloop : chunkLoop cs o th page st (s :: rest) =
        chunkLoop cs o th page (chunkStep cs o th page st s) rest := rfl
    rw [hloop]
    by_cases hcond : (st.cur ++ " " ++ s).length > cs ∧ st.cur ≠ ""
    case pos =>
      have hcurSne : st.curS ≠ [] := by
        intro h0
        exact hcond.2 (by rw [hcur, h0]; rfl)
      rw [chunkStep_emit_ov cs o th page st s hcond ⟨ho, hcurSne⟩]
      have hovsub : st.curS.drop (st.curS.length - min 2 st.curS.length) ⊆ st.curS :=
        List.drop_subset _ _
      have hovne : st.curS.drop (st.curS.length - min 2 st.curS.length) ≠ [] := by
        intro h0
        have hl := congrArg List.length h0
        rw [List.length_drop] at hl
        have hpos : 0 < st.curS.length := List.length_pos.mpr hcurSne
        simp at hl
        omega
      have hovwf : ∀ x ∈ st.curS.drop (st.curS.length - min 2 st.curS.length), WFsent x :=
        fun x hx => hwfS x (hovsub hx)
      have hjovne : pyJoin " " (st.curS.drop (st.curS.length - min 2 st.curS.length)) ≠ "" :=
        pyJoin_ne_empty _ _ (fun x hx => (hovwf x hx).1) hovne
      have hstrip : pyStrip st.cur = st.cur := by
        rw [hcur]
        exact pyStrip_join _ hwfS
      have hstripne : pyStrip st.cur ≠ "" := by
        rw [hstrip]
        exact hcond.2
      -- the newly appended chunk carries the old buffer as its sentences
      obtain ⟨cN, hemit, hcNs⟩ :
          ∃ cN, emitChunk th page st = st.chunks ++ [cN] ∧ cN.sentences = st.curS :=
        ⟨_, emitChunk_append th page st hstripne, rfl⟩
      have hchain2 : List.Chain' (fun a b => sharesSentence a b = true)
          (emitChunk th page st) := by
        rw [hemit, List.chain'_append]
        refine ⟨hchain, List.chain'_singleton _, ?_⟩
        intro x hx y hy
        rw [Option.mem_def, List.head?_cons] at hy
        have hy' : cN = y := by injection hy
        cases hlink with
        | inl h0 =>
          rw [Option.mem_def, h0] at hx
          simp at hx
        | inr h0 =>
          obtain ⟨cl, hcl, s0, hs0, hs0l⟩ := h0
          rw [Option.mem_def, hcl] at hx
          have hclx : cl = x := by injection hx
          apply shares_of_mem x y s0
          · rw [← hclx]
            exact hs0l
          · rw [← hy', hcNs]
            exact hs0
      obtain ⟨t, ht⟩ : ∃ t, t ∈ st.curS.drop (st.curS.length - min 2 st.curS.length) := by
        cases hov2 : st.curS.drop (st.curS.length - min 2 st.curS.length) with
        | nil => exact absurd hov2 hovne
        | cons t ts => exact ⟨t, List.mem_cons_self _ _⟩
      refine ih _ hwf' ?_ ?_ ?_ ?_
      · dsimp only
        rw [if_pos hjovne, pyJoin_append_single " " _ s hovne]
      · intro x hx
        dsimp only at hx
        rw [List.mem_append] at hx
        cases hx with
        | inl hx => exact hovwf x hx
        | inr hx =>
          rw [List.mem_singleton] at hx
          subst hx
          exact hs
      · dsimp only
        exact hchain2
      · dsimp only
        refine Or.inr ⟨cN, ?_, t, List.mem_append_left _ ht, ?_⟩
        · rw [hemit]
          exact List.getLast?_concat _
        · rw [hcNs]
          exact hovsub ht
    case neg =>
      rw [chunkStep_no_emit cs o th page st s hcond]
      refine ih _ hwf' ?_ ?_ ?_ ?_
      · dsimp only
        by_cases hc : st.cur = ""
        · have hcurSnil : st.curS = [] := by
            cases hcs : st.curS with
            | nil => rfl
            | cons a t =>
              exfalso
              apply pyJoin_ne_empty " " (a :: t) ?_ (by simp)
              · rw [← hcs, ← hcur]
                exact hc
              · intro x hx
                rw [← hcs] at hx
                exact (hwfS x hx).1
          rw [if_neg (by simpa using hc), hcurSnil]
          rfl
        · have hcurSne : st.curS ≠ [] := by
            intro h0
            apply hc
            rw [hcur, h0]
            rfl
          rw [if_pos hc, hcur, pyJoin_append_single " " st.curS s hcurSne]
      · intro x hx
        dsimp only at hx
        rw [List.mem_append] at hx
        cases hx with
        | inl hx => exact hwfS x hx
        | inr hx =>
          rw [List.mem_singleton] at hx
          subst hx
          exact hs
      · exact hchain
      · dsimp only
        cases hlink with
        | inl h0 => exact Or.inl h0
        | inr h0 =>
          obtain ⟨cl, hcl, s0, hs0, hs0l⟩ := h0
          exact Or.inr ⟨cl, hcl, s0, List.mem_append_left _ hs0, hs0l⟩


/-- Helper: the final emission preserves the sharing chain, linking the last
emitted chunk through the final buffer. -/
theorem emitChunk_chain (th : String → String) (page : Nat) (st : ChunkState)
    (hchain : List.Chain' (fun a b => sharesSentence a b = true) st.chunks)
    (hlink : st.chunks = [] ∨ ∃ cl, st.chunks.getLast? = some cl ∧
       ∃ s, s ∈ st.curS ∧ s ∈ cl.sentences) :
    List.Chain' (fun a b => sharesSentence a b = true) (emitChunk th page st) := by
  by_cases hstr : pyStrip st.cur ≠ ""
  case pos =>
    obtain ⟨cN, hemit, hcNs⟩ :
        ∃ cN, emitChunk th page st = st.chunks ++ [cN] ∧ cN.sentences = st.curS :=
      ⟨_, emitChunk_append th page st hstr, rfl⟩
    rw [hemit, List.chain'_append]
    refine ⟨hchain, List.chain'_singleton _, ?_⟩
    intro x hx y hy
    rw [Option.mem_def, List.head?_cons] at hy
    have hy' : cN = y := by injection hy
    cases hlink with
    | inl h0 =>
      rw [Option.mem_def, h0] at hx
      simp at hx
    | inr h0 =>
      obtain ⟨cl, hcl, s0, hs0, hs0l⟩ := h0
      rw [Option.mem_def, hcl] at hx
      have hclx : cl = x := by injection hx
      apply shares_of_mem x y s0
      · rw [← hclx]
        exact hs0l
      · rw [← hy', hcNs]
        exact hs0
  case neg =>
    unfold emitChunk
    rw [if_neg hstr]
    exact hchain

/-- Helper: with positive overlap, consecutive chunks produced from one
sentence list share a sentence. -/
theorem chunkSentences_share (cs o : Nat) (th : String → String) (page : Nat)
    (ss : List String) (ho : 0 < o) (hwf : ∀ s ∈ ss, WFsent s) :
    List.Chain' (fun a b => sharesSentence a b = true)
      (chunkSentences cs o th page ss) := by
  obtain ⟨hcur, hwfS, hchain, hlink⟩ :=
    chunkLoop_share cs o th page ho ss { chunks := [], cur := "", curS := [] }
      hwf rfl (by intro x hx; simp at hx) List.chain'_nil (Or.inl rfl)
  exact emitChunk_chain th page _ hchain hlink

/-- Helper: with positive overlap, consecutive chunks of one page share a
sentence. -/
theorem chunkPage_share (cs o : Nat) (th : String → String) (page : Nat)
    (text : String) (ho : 0 < o) :
    List.Chain' (fun a b => sharesSentence a b = true)
      (chunkPage cs o th page text) := by
  by_cases ht : cleanText text = ""
  case pos =>
    unfold chunkPage
    rw [if_pos ht]
    exact List.chain'_nil
  case neg =>
    have : chunkPage cs o th page text =
        chunkSentences cs o th page (splitSentences (cleanText text)) := by
      unfold chunkPage chunkSentences
      rw [if_neg ht]
    rw [this]
    exact chunkSentences_share cs o th page _ ho (splitSentences_cleanText_wf text ht)


/-- Helper: appending an element related to every list element preserves
`Chain\x27`. -/
theorem chain_append_singleton {α : Type} (R : α → α → Prop) (l : List α) (x : α)
    (hchain : List.Chain' R l) (hbound : ∀ p ∈ l, R p x) :
    List.Chain' R (l ++ [x]) := by
  rw [List.chain'_append]
  refine ⟨hchain, List.chain'_singleton _, ?_⟩
  intro a ha y hy
  rw [Option.mem_def, List.head?_cons] at hy
  have hxy : x = y := by injection hy
  rw [← hxy]
  exact hbound a (List.mem_of_getLast?_eq_some ha)

/-- Helper: the loop's slice invariant.  The buffer is always a contiguous
slice of the page's sentence list; the emitted chunks' sentence buffers are
slices whose start indices are nondecreasing; with zero overlap consecutive
slices are moreover disjoint ranges. -/
theorem chunkLoop_slices (cs o : Nat) (th : String → String) (page : Nat)
    (ss : List String) :
    ∀ (suf : List String) (k : Nat) (st : ChunkState) (j : Nat)
      (spans : List (Nat × Nat)),
    ss.drop k = suf → k ≤ ss.length → j ≤ k →
    st.curS = slice ss j (k - j) →
    st.chunks.map Chunk.sentences = spans.map (fun p => slice ss p.1 p.2) →
    List.Chain' (fun p q => p.1 ≤ q.1) spans →
    (∀ p ∈ spans, p.1 ≤ j) →
    (o = 0 → List.Chain' (fun p q => p.1 + p.2 ≤ q.1) spans) →
    (o = 0 → ∀ p ∈ spans, p.1 + p.2 ≤ j) →
    ∃ (j2 : Nat) (spans2 : List (Nat × Nat)),
      j2 ≤ ss.length ∧
      (chunkLoop cs o th page st suf).curS = slice ss j2 (ss.length - j2) ∧
      (chunkLoop cs o th page st suf).chunks.map Chunk.sentences =
        spans2.map (fun p => slice ss p.1 p.2) ∧
      List.Chain' (fun p q => p.1 ≤ q.1) spans2 ∧
      (∀ p ∈ spans2, p.1 ≤ j2) ∧
      (o = 0 → List.Chain' (fun p q => p.1 + p.2 ≤ q.1) spans2) ∧
      (o = 0 → ∀ p ∈ spans2, p.1 + p.2 ≤ j2) := by
  intro suf
  induction suf with
  | nil =>
    intro k st j spans hdrop hk hj hcurS hchunks hchain hbound hchain0 hbound0
    have hkl : ss.length ≤ k := by
      have hlen := congrArg List.length hdrop
      rw [List.length_drop] at hlen
      simp at hlen
      omega
    have hkeq : k = ss.length := le_antisymm hk hkl
    refine ⟨j, spans, by omega, ?_, hchunks, hchain, hbound, hchain0, hbound0⟩
    rw [← hkeq]
    exact hcurS
  | cons s rest ih =>
    intro k st j spans hdrop hk hj hcurS hchunks hchain hbound hchain0 hbound0
    have hloop : chunkLoop cs o th page st (s :: rest) =
        chunkLoop cs o th page (chunkStep cs o th page st s) rest := rfl
    rw [hloop]
    have hklt : k < ss.length := by
      by_contra hc
      push_neg at hc
      rw [List.drop_eq_nil_of_le hc] at hdrop
      exact List.cons_ne_nil s rest hdrop.symm
    have hdrop' : ss.drop (k + 1) = rest := by
      rw [← List.drop_drop, hdrop]
      rfl
    have hsnoc : slice ss j (k - j) ++ [s] = slice ss j (k - j + 1) :=
      slice_snoc ss j (k - j) s rest
        (by rw [show j + (k - j) = k by omega]; exact hdrop)
    by_cases hcond : (st.cur ++ " " ++ s).length > cs ∧ st.cur ≠ ""
    case neg =>
      rw [chunkStep_no_emit cs o th page st s hcond]
      refine ih (k + 1) _ j spans hdrop' (by omega) (by omega) ?_
        hchunks hchain hbound hchain0 hbound0
      dsimp only
      rw [hcurS, hsnoc, show k - j + 1 = k + 1 - j by omega]
    case pos =>
      by_cases hov : o > 0 ∧ st.curS ≠ []
      case pos =>
        rw [chunkStep_emit_ov cs o th page st s hcond hov]
        have hlenS : st.curS.length = k - j := by
          rw [hcurS]
          exact slice_length ss j (k - j) (by omega)
        have hkj : 0 < k - j := by
          by_contra hc
          apply hov.2
          have : st.curS.length = 0 := by omega
          exact List.length_eq_zero.mp this
        have hov_slice : st.curS.drop (st.curS.length - min 2 st.curS.length) =
            slice ss (j + ((k - j) - min 2 (k - j))) (min 2 (k - j)) := by
          rw [hlenS, hcurS, slice_drop,
            show (k - j) - ((k - j) - min 2 (k - j)) = min 2 (k - j) by omega]
        have hcurS' : st.curS.drop (st.curS.length - min 2 st.curS.length) ++ [s] =
            slice ss (j + ((k - j) - min 2 (k - j)))
              ((k + 1) - (j + ((k - j) - min 2 (k - j)))) := by
          rw [hov_slice]
          have hs2 := slice_snoc ss (j + ((k - j) - min 2 (k - j))) (min 2 (k - j)) s rest
            (by rw [show (j + ((k - j) - min 2 (k - j))) + min 2 (k - j) = k by omega]
                exact hdrop)
          rw [hs2, show min 2 (k - j) + 1 =
            (k + 1) - (j + ((k - j) - min 2 (k - j))) by omega]
        by_cases hstr : pyStrip st.cur ≠ ""
        case pos =>
          obtain ⟨cN, hemit, hcNs⟩ :
              ∃ cN, emitChunk th page st = st.chunks ++ [cN] ∧
                cN.sentences = st.curS :=
            ⟨_, emitChunk_append th page st hstr, rfl⟩
          refine ih (k + 1) _ (j + ((k - j) - min 2 (k - j))) (spans ++ [(j, k - j)])
            hdrop' (by omega) (by omega) ?_ ?_ ?_ ?_ ?_ ?_
          · dsimp only
            exact hcurS'
          · dsimp only
            rw [hemit, List.map_append, List.map_append, hchunks]
            simp only [List.map_cons, List.map_nil]
            rw [hcNs, hcurS]
          · exact chain_append_singleton _ spans (j, k - j) hchain
              (fun p hp => hbound p hp)
          · intro p hp
            rw [List.mem_append] at hp
            cases hp with
            | inl hp => exact le_trans (hbound p hp) (by omega)
            | inr hp =>
              rw [List.mem_singleton] at hp
              subst hp
              omega
          · intro h0
            exact absurd h0 (by omega)
          · intro h0
            exact absurd h0 (by omega)
        case neg =>
          have hemit : emitChunk th page st = st.chunks := by
            unfold emitChunk
            rw [if_neg hstr]
          refine ih (k + 1) _ (j + ((k - j) - min 2 (k - j))) spans
            hdrop' (by omega) (by omega) ?_ ?_ hchain ?_ ?_ ?_
          · dsimp only
            exact hcurS'
          · dsimp only
            rw [hemit, hchunks]
          · intro p hp
            exact le_trans (hbound p hp) (by omega)
          · intro h0
            exact absurd h0 (by omega)
          · intro h0
            exact absurd h0 (by omega)
      case neg =>
        rw [chunkStep_emit_reset cs o th page st s hcond hov]
        have hone : ([s] : List String) = slice ss k ((k + 1) - k) := by
          rw [show (k + 1) - k = 1 by omega]
          unfold slice
          rw [hdrop]
          rfl
        by_cases hstr : pyStrip st.cur ≠ ""
        case pos =>
          obtain ⟨cN, hemit, hcNs⟩ :
              ∃ cN, emitChunk th page st = st.chunks ++ [cN] ∧
                cN.sentences = st.curS :=
            ⟨_, emitChunk_append th page st hstr, rfl⟩
          refine ih (k + 1) _ k (spans ++ [(j, k - j)])
            hdrop' (by omega) (by omega) ?_ ?_ ?_ ?_ ?_ ?_
          · dsimp only
            exact hone
          · dsimp only
            rw [hemit, List.map_append, List.map_append, hchunks]
            simp only [List.map_cons, List.map_nil]
            rw [hcNs, hcurS]
          · exact chain_append_singleton _ spans (j, k - j) hchain
              (fun p hp => hbound p hp)
          · intro p hp
            rw [List.mem_append] at hp
            cases hp with
            | inl hp => exact le_trans (hbound p hp) (by omega)
            | inr hp =>
              rw [List.mem_singleton] at hp
              subst hp
              omega
          · intro h0
            refine chain_append_singleton _ spans (j, k - j) (hchain0 h0) ?_
            intro p hp
            exact le_trans (hbound0 h0 p hp) (by omega)
          · intro h0 p hp
            rw [List.mem_append] at hp
            cases hp with
            | inl hp => exact le_trans (hbound0 h0 p hp) (by omega)
            | inr hp =>
              rw [List.mem_singleton] at hp
              subst hp
              omega
        case neg =>
          have hemit : emitChunk th page st = st.chunks := by
            unfold emitChunk
            rw [if_neg hstr]
          refine ih (k + 1) _ k spans hdrop' (by omega) (by omega) ?_ ?_
            hchain ?_ ?_ ?_
          · dsimp only
            exact hone
          · dsimp only
            rw [hemit, hchunks]
          · intro p hp
            exact le_trans (hbound p hp) (by omega)
          · exact hchain0
          · intro h0 p hp
            exact le_trans (hbound0 h0 p hp) (by omega)


/-- Helper: the final emission extends the slice decomposition by the final
buffer's span. -/
theorem emitChunk_slices (th : String → String) (page : Nat) (st : ChunkState)
    (ss : List String) (j2 : Nat) (spans2 : List (Nat × Nat))
    (hcurS : st.curS = slice ss j2 (ss.length - j2))
    (hchunks : st.chunks.map Chunk.sentences =
      spans2.map (fun p => slice ss p.1 p.2))
    (hchain : List.Chain' (fun p q => p.1 ≤ q.1) spans2)
    (hbound : ∀ p ∈ spans2, p.1 ≤ j2) :
    ∃ spans3 : List (Nat × Nat),
      (emitChunk th page st).map Chunk.sentences =
        spans3.map (fun p => slice ss p.1 p.2) ∧
      List.Chain' (fun p q => p.1 ≤ q.1) spans3 ∧
      (List.Chain' (fun p q => p.1 + p.2 ≤ q.1) spans2 →
        (∀ p ∈ spans2, p.1 + p.2 ≤ j2) →
        List.Chain' (fun p q => p.1 + p.2 ≤ q.1) spans3) := by
  by_cases hstr : pyStrip st.cur ≠ ""
  case pos =>
    obtain ⟨cN, hemit, hcNs⟩ :
        ∃ cN, emitChunk th page st = st.chunks ++ [cN] ∧
          cN.sentences = st.curS :=
      ⟨_, emitChunk_append th page st hstr, rfl⟩
    refine ⟨spans2 ++ [(j2, ss.length - j2)], ?_, ?_, ?_⟩
    · rw [hemit, List.map_append, List.map_append, hchunks]
      simp only [List.map_cons, List.map_nil]
      rw [hcNs, hcurS]
    · exact chain_append_singleton _ spans2 (j2, ss.length - j2) hchain hbound
    · intro hadj hbound0
      exact chain_append_singleton _ spans2 (j2, ss.length - j2) hadj hbound0
  case neg =>
    have hemit : emitChunk th page st = st.chunks := by
      unfold emitChunk
      rw [if_neg hstr]
    exact ⟨spans2, by rw [hemit, hchunks], hchain, fun hadj _ => hadj⟩

/-- Helper: the chunks produced from one sentence list carry slice sentence
buffers with nondecreasing starts; disjoint ranges when overlap is zero. -/
theorem chunkSentences_slices (cs o : Nat) (th : String → String) (page : Nat)
    (ss : List String) :
    ∃ spans : List (Nat × Nat),
      (chunkSentences cs o th page ss).map Chunk.sentences =
        spans.map (fun p => slice ss p.1 p.2) ∧
      List.Chain' (fun p q => p.1 ≤ q.1) spans ∧
      (o = 0 → List.Chain' (fun p q => p.1 + p.2 ≤ q.1) spans) := by
  obtain ⟨j2, spans2, hj2, hcurS, hchunks, hchain, hbound, hchain0, hbound0⟩ :=
    chunkLoop_slices cs o th page ss ss 0
      { chunks := [], cur := "", curS := [] } 0 [] rfl (Nat.zero_le _) le_rfl
      rfl rfl List.chain'_nil (fun p hp => absurd hp (List.not_mem_nil p))
      (fun _ => List.chain'_nil) (fun _ p hp => absurd hp (List.not_mem_nil p))
  obtain ⟨spans3, hmap3, hchain3, hadj3⟩ :=
    emitChunk_slices th page _ ss j2 spans2 hcurS hchunks hchain hbound
  exact ⟨spans3, hmap3, hchain3, fun h0 => hadj3 (hchain0 h0) (hbound0 h0)⟩

/-- Helper: the slice decomposition of one page's chunks. -/
theorem chunkPage_slices (cs o : Nat) (th : String → String) (page : Nat)
    (text : String) :
    ∃ spans : List (Nat × Nat),
      (chunkPage cs o th page text).map Chunk.sentences =
        spans.map (fun p => slice (splitSentences (cleanText text)) p.1 p.2) ∧
      List.Chain' (fun p q => p.1 ≤ q.1) spans ∧
      (o = 0 → List.Chain' (fun p q => p.1 + p.2 ≤ q.1) spans) := by
  by_cases ht : cleanText text = ""
  case pos =>
    refine ⟨[], ?_, List.chain'_nil, fun _ => List.chain'_nil⟩
    unfold chunkPage
    rw [if_pos ht]
    rfl
  case neg =>
    have heq : chunkPage cs o th page text =
        chunkSentences cs o th page (splitSentences (cleanText text)) := by
      unfold chunkPage chunkSentences
      rw [if_neg ht]
    rw [heq]
    exact chunkSentences_slices cs o th page _

/-- Helper: transfer a chain along equal map images. -/
theorem chain_of_map_eq {α β γ : Type} (f : α → γ) (g : β → γ)
    (R : β → β → Prop) (S : α → α → Prop) :
    ∀ (l1 : List α) (l2 : List β), l1.map f = l2.map g →
    List.Chain' R l2 →
    (∀ a b p q, f a = g p → f b = g q → R p q → S a b) →
    List.Chain' S l1 := by
  intro l1
  induction l1 with
  | nil =>
    intro l2 _ _ _
    exact List.chain'_nil
  | cons a t ih =>
    intro l2 hmap hchain htr
    cases t with
    | nil => exact List.chain'_singleton _
    | cons b t2 =>
      cases l2 with
      | nil => simp at hmap
      | cons p l2t =>
        cases l2t with
        | nil =>
          rw [List.map_cons, List.map_cons, List.map_cons, List.map_nil] at hmap
          injection hmap with h1 hrest
          simp at hrest
        | cons q l2t2 =>
          rw [List.map_cons, List.map_cons, List.map_cons, List.map_cons] at hmap
          injection hmap with h1 hrest
          injection hrest with h2 hrest2
          rw [List.chain'_cons] at hchain
          rw [List.chain'_cons]
          refine ⟨htr a b p q h1 h2 hchain.1, ?_⟩
          apply ih (q :: l2t2) ?_ hchain.2 htr
          rw [List.map_cons, List.map_cons, h2, hrest2]

/-- Helper: chunks whose sentence buffers are disjoint-range slices of a
duplicate-free sentence list share no sentence. -/
theorem slices_disjoint (ss : List String) (hnd : ss.Nodup) (a b : Chunk)
    (p q : Nat × Nat) (hpa : a.sentences = slice ss p.1 p.2)
    (hqb : b.sentences = slice ss q.1 q.2) (hR : p.1 + p.2 ≤ q.1) :
    sharesSentence a b = false := by
  by_contra hc
  have hc' : sharesSentence a b = true := by
    cases hb : sharesSentence a b with
    | false => exact absurd hb hc
    | true => rfl
  obtain ⟨s, hs1, hs2⟩ := mem_of_shares a b hc'
  rw [hpa] at hs1
  rw [hqb] at hs2
  obtain ⟨i, hib, hi⟩ := mem_slice ss p.1 p.2 s hs1
  obtain ⟨i2, hib2, hi2⟩ := mem_slice ss q.1 q.2 s hs2
  have hlt : p.1 + i < ss.length := by
    by_contra hcl
    push_neg at hcl
    rw [List.getElem?_eq_none hcl] at hi
    exact Option.noConfusion hi
  have heq : ss[p.1 + i]? = ss[q.1 + i2]? := by rw [hi, hi2]
  have := List.getElem?_inj hlt hnd heq
  omega

/-- C6 counterexample: with positive overlap the chunker starts each page
afresh, so consecutive chunks lying on different pages share no sentence
(pages "Alpha one." and "Beta two.", chunk size 12, overlap 1); and with
overlap 0 a repeated sentence makes consecutive chunks share a sentence
(page "Hi. Hi.", chunk size 4). -/
theorem chunk_overlap_claim_counterexample :
    (¬ List.Chain' (fun a b => sharesSentence a b = true)
        (createChunks 12 1 (fun s => s) [(1, "Alpha one."), (2, "Beta two.")])) ∧
    (¬ List.Chain' (fun a b => sharesSentence a b = false)
        (createChunks 4 0 (fun s => s) [(1, "Hi. Hi.")])) := by
  constructor
  · intro hc
    simp [createChunks, chunkPage, cleanText, collapseWsList, collapseNlList,
      isCleanKeep, isPyWord, isPySpace, pyStripList, pyStrip, splitSentences,
      splitSentencesList, isSentEnd, chunkLoop, chunkStep, emitChunk, pyJoin,
      pyWordCount, pyWordsAux, sharesSentence] at hc
  · intro hc
    have hx1 : (" Hi." : String).length = 4 := rfl
    have hx2 : ("Hi. Hi." : String).length = 7 := rfl
    simp [createChunks, chunkPage, cleanText, collapseWsList, collapseNlList,
      isCleanKeep, isPyWord, isPySpace, pyStripList, pyStrip, splitSentences,
      splitSentencesList, isSentEnd, chunkLoop, chunkStep, emitChunk, pyJoin,
      pyWordCount, pyWordsAux, sharesSentence, hx1, hx2] at hc

/-- C6 (amended): within one page, when the configured overlap is positive
every non-first chunk shares at least one sentence with its immediate
predecessor; when the overlap is zero, consecutive chunks share no sentence
provided the page's sentences are pairwise distinct.  (Across pages the
buffer restarts, so cross-page neighbours need not share; and with overlap 0
a sentence repeated in the page can occur in both of two consecutive
chunks.) -/
theorem chunk_overlap_amended (cs o : Nat) (th : String → String) (page : Nat)
    (text : String) :
    (0 < o → List.Chain' (fun a b => sharesSentence a b = true)
        (chunkPage cs o th page text)) ∧
    (o = 0 → (splitSentences (cleanText text)).Nodup →
      List.Chain' (fun a b => sharesSentence a b = false)
        (chunkPage cs o th page text)) := by
  constructor
  · intro ho
    exact chunkPage_share cs o th page text ho
  · intro h0 hnd
    obtain ⟨spans, hmap, hchain, hchain0⟩ := chunkPage_slices cs o th page text
    exact chain_of_map_eq Chunk.sentences _ _ _ _ spans hmap (hchain0 h0)
      (fun a b p q hpa hqb hR => slices_disjoint _ hnd a b p q hpa hqb hR)

/-- C6 witness: chunk size 4 with overlap 1 on the page "Hi. Hi." gives a
sharing chain; chunk size 4 with overlap 0 on the page "One. Two." (distinct
sentences) gives a non-sharing chain. -/
theorem chunk_overlap_amended_witness :
    List.Chain' (fun a b => sharesSentence a b = true)
      (chunkPage 4 1 (fun s => s) 1 "Hi. Hi.") ∧
    List.Chain' (fun a b => sharesSentence a b = false)
      (chunkPage 4 0 (fun s => s) 1 "One. Two.") := by
  constructor
  · exact (chunk_overlap_amended 4 1 (fun s => s) 1 "Hi. Hi.").1 (by decide)
  · apply (chunk_overlap_amended 4 0 (fun s => s) 1 "One. Two.").2 rfl
    have heq : splitSentences (cleanText "One. Two.") = ["One.", "Two."] := by
      simp [cleanText, collapseWsList, collapseNlList, isCleanKeep, isPyWord,
        isPySpace, pyStripList, pyStrip, splitSentences, splitSentencesList,
        isSentEnd]
    rw [heq]
    decide


/-- Helper: every chunk the final emission produces carries the page number
it was invoked with. -/
theorem emitChunk_page (th : String → String) (page : Nat) (st : ChunkState)
    (hst : ∀ c ∈ st.chunks, c.page = page) :
    ∀ c ∈ emitChunk th page st, c.page = page := by
  intro c hc
  unfold emitChunk at hc
  by_cases hstr : pyStrip st.cur ≠ ""
  case pos =>
    rw [if_pos hstr, List.mem_append] at hc
    cases hc with
    | inl hc => exact hst c hc
    | inr hc =>
      rw [List.mem_singleton] at hc
      subst hc
      rfl
  case neg =>
    rw [if_neg hstr] at hc
    exact hst c hc

/-- Helper: the loop only emits chunks carrying its page number. -/
theorem chunkLoop_page (cs o : Nat) (th : String → String) (page : Nat) :
    ∀ (ss : List String) (st : ChunkState),
    (∀ c ∈ st.chunks, c.page = page) →
    ∀ c ∈ (chunkLoop cs o th page st ss).chunks, c.page = page := by
  intro ss
  induction ss with
  | nil =>
    intro st hst
    exact hst
  | cons s rest ih =>
    intro st hst
    have hloop : chunkLoop cs o th page st (s :: rest) =
        chunkLoop cs o th page (chunkStep cs o th page st s) rest := rfl
    rw [hloop]
    apply ih
    by_cases hcond : (st.cur ++ " " ++ s).length > cs ∧ st.cur ≠ ""
    case pos =>
      by_cases hov : o > 0 ∧ st.curS ≠ []
      case pos =>
        rw [chunkStep_emit_ov cs o th page st s hcond hov]
        exact emitChunk_page th page st hst
      case neg =>
        rw [chunkStep_emit_reset cs o th page st s hcond hov]
        exact emitChunk_page th page st hst
    case neg =>
      rw [chunkStep_no_emit cs o th page st s hcond]
      exact hst

/-- Helper: every chunk of a page carries that page's number. -/
theorem chunkPage_page (cs o : Nat) (th : String → String) (p : Nat)
    (text : String) : ∀ c ∈ chunkPage cs o th p text, c.page = p := by
  intro c hc
  by_cases ht : cleanText text = ""
  case pos =>
    unfold chunkPage at hc
    rw [if_pos ht] at hc
    exact absurd hc (List.not_mem_nil c)
  case neg =>
    have heq : chunkPage cs o th p text =
        chunkSentences cs o th p (splitSentences (cleanText text)) := by
      unfold chunkPage chunkSentences
      rw [if_neg ht]
    rw [heq] at hc
    unfold chunkSentences at hc
    refine emitChunk_page th p _ ?_ c hc
    exact chunkLoop_page cs o th p _ _ (fun c hc => absurd hc (List.not_mem_nil c))

/-- C7: order preservation end to end.  The persisted records carry ordinal
indices 0..N-1 in chunker emission order and preserve the chunk texts and
page numbers; the chunker processes pages in input order (its output is the
concatenation of the per-page outputs), every chunk of a page is stamped with
that page's number, and within a page the chunks' sentence buffers are
contiguous slices of the page's sentence sequence with nondecreasing start
positions, so sentence content appears in source order. -/
theorem chunk_order_preserved (cs o : Nat) (th : String → String)
    (pages : List (Nat × String)) (documentId : Nat) (userId : String) :
    ((persistChunks documentId userId (createChunks cs o th pages)).map
        RAGChunkRecord.chunkIndex =
      List.range (createChunks cs o th pages).length) ∧
    ((persistChunks documentId userId (createChunks cs o th pages)).map
        RAGChunkRecord.text =
      (createChunks cs o th pages).map Chunk.text) ∧
    ((persistChunks documentId userId (createChunks cs o th pages)).map
        RAGChunkRecord.pageNumber =
      (createChunks cs o th pages).map Chunk.page) ∧
    (createChunks cs o th pages =
      (pages.map (fun pc => chunkPage cs o th pc.1 pc.2)).flatten) ∧
    (∀ pc ∈ pages, ∀ c ∈ chunkPage cs o th pc.1 pc.2, c.page = pc.1) ∧
    (∀ pc ∈ pages, ∃ spans : List (Nat × Nat),
      (chunkPage cs o th pc.1 pc.2).map Chunk.sentences =
        spans.map (fun p => slice (splitSentences (cleanText pc.2)) p.1 p.2) ∧
      List.Chain' (fun p q => p.1 ≤ q.1) spans) := by
  refine ⟨?_, ?_, ?_, rfl, ?_, ?_⟩
  · unfold persistChunks
    rw [List.map_map]
    exact List.enum_map_fst _
  · unfold persistChunks
    rw [List.map_map]
    have : (createChunks cs o th pages).enum.map
        (RAGChunkRecord.text ∘ fun p =>
          ({ documentId := documentId, userId := userId, chunkIndex := p.1,
             chunkId := toString documentId ++ "_" ++ toString p.1,
             text := p.2.text, textHash := p.2.textHash, pageNumber := p.2.page,
             wordCount := p.2.wordCount, charCount := p.2.charCount,
             sentenceCount := p.2.sentenceCount } : RAGChunkRecord)) =
        (createChunks cs o th pages).enum.map (Chunk.text ∘ Prod.snd) := rfl
    rw [this, ← List.map_map]
    rw [List.enum_map_snd]
  · unfold persistChunks
    rw [List.map_map]
    have : (createChunks cs o th pages).enum.map
        (RAGChunkRecord.pageNumber ∘ fun p =>
          ({ documentId := documentId, userId := userId, chunkIndex := p.1,
             chunkId := toString documentId ++ "_" ++ toString p.1,
             text := p.2.text, textHash := p.2.textHash, pageNumber := p.2.page,
             wordCount := p.2.wordCount, charCount := p.2.charCount,
             sentenceCount := p.2.sentenceCount } : RAGChunkRecord)) =
        (createChunks cs o th pages).enum.map (Chunk.page ∘ Prod.snd) := rfl
    rw [this, ← List.map_map]
    rw [List.enum_map_snd]
  · intro pc _
    exact chunkPage_page cs o th pc.1 pc.2
  · intro pc _
    obtain ⟨spans, hmap, hchain, -⟩ := chunkPage_slices cs o th pc.1 pc.2
    exact ⟨spans, hmap, hchain⟩

end Elenchus
